import Mathlib

/-!
Verification development for the wnfs-go repository: a versioned,
content-addressed filesystem with per-node history and three-way merge.

The public-tree implementation is embedded as a shallow model.  Content
identifiers (CIDs) are modelled by the node values themselves, compared by
a structural total order (the spec states that CID equality is value
equality on block contents and that two distinct CIDs always denote
distinct contents, so this is a faithful model).  `previous` and `merge`
pointers embed the pointed-to node value directly, which is equivalent to
storing its CID in a content-addressed store.

Definitions taken from files present in the source excerpt
(`base` merge types, `cmd` external state handling) are embedded directly;
definitions for the tree engine itself (whose implementation is not part of
the excerpt; only its tests are) are modelled from the specification and are
marked `Modelled from the spec:` in their doc comments.  The test scenarios
that are present in the source are re-played against the model below as
concrete theorems.
-/

namespace Wnfs

/-! ## The public node model

`Node` models public file and tree nodes.  A file carries its userland
content (a byte list) and an optional `previous` version; a tree carries a
name-indexed child map, an optional `previous` version and an optional
`merge` pointer (set only on merge commits).  The three types are a mutual
inductive so that all recursions stay structural and kernel-reducible. -/

mutual

/-- Modelled from the spec: public node variants (§3).  A `file` holds
userland bytes and a `previous` link; a `dir` holds named child links, a
`previous` link and a `merge` link. -/
inductive Node where
  | file (content : List Nat) (previous : PrevLink)
  | dir (children : NodeMap) (previous : PrevLink) (mergeLink : PrevLink)

/-- Modelled from the spec: an optional link to a predecessor node.  In the
store this is a CID; here it embeds the node value, which determines the CID. -/
inductive PrevLink where
  | none
  | some (n : Node)

/-- Modelled from the spec: a directory's children, a mapping from name to
link kept in ascending name order (names are unique within a directory). -/
inductive NodeMap where
  | nil
  | cons (name : String) (child : Node) (rest : NodeMap)

end

/-! ## Comparisons

Executable three-valued comparisons: a generic lexicographic comparison on
lists (through a `Nat`-valued key), instantiated for byte lists, character
lists and strings.  `strLt` keeps child maps canonically ordered; the same
comparisons drive the structural CID order below. -/

/-- Three-valued comparison on `Nat`. -/
def natCmp (a b : Nat) : Ordering :=
  if Nat.blt a b then Ordering.lt else if Nat.blt b a then Ordering.gt else Ordering.eq

/-- Generic three-valued lexicographic comparison on lists, through a
`Nat`-valued key. -/
def lexCmp (f : α → Nat) : List α → List α → Ordering
  | [], [] => Ordering.eq
  | [], _ :: _ => Ordering.lt
  | _ :: _, [] => Ordering.gt
  | a :: as, b :: bs =>
      match natCmp (f a) (f b) with
      | Ordering.eq => lexCmp f as bs
      | o => o

/-- Three-valued lexicographic comparison on byte lists. -/
def listNatCmp (a b : List Nat) : Ordering := lexCmp (fun x => x) a b

/-- Three-valued lexicographic comparison on character lists. -/
def charsCmp (a b : List Char) : Ordering := lexCmp Char.toNat a b

/-- Three-valued comparison on strings. -/
def strCmp (a b : String) : Ordering := charsCmp a.data b.data

/-- Lexicographic strict order on strings. -/
def strLt (a b : String) : Bool :=
  match strCmp a b with
  | Ordering.lt => true
  | _ => false

/-! ## Child-map operations -/

/-- Look a name up in a child map. -/
def lookupNM (n : String) : NodeMap → Option Node
  | NodeMap.nil => Option.none
  | NodeMap.cons m c rest => if n = m then Option.some c else lookupNM n rest

/-- Insert (or replace) a child, keeping the map ordered by name. -/
def insertNM (n : String) (v : Node) : NodeMap → NodeMap
  | NodeMap.nil => NodeMap.cons n v NodeMap.nil
  | NodeMap.cons m c rest =>
      if n = m then NodeMap.cons n v rest
      else if strLt n m then NodeMap.cons n v (NodeMap.cons m c rest)
      else NodeMap.cons m c (insertNM n v rest)

/-- Remove a child by name. -/
def removeNM (n : String) : NodeMap → NodeMap
  | NodeMap.nil => NodeMap.nil
  | NodeMap.cons m c rest =>
      if n = m then removeNM n rest else NodeMap.cons m c (removeNM n rest)

/-- The list of child names, in map order. -/
def namesOf : NodeMap → List String
  | NodeMap.nil => []
  | NodeMap.cons n _ rest => n :: namesOf rest

mutual

/-- Height of a node: 1 + height of its child map. -/
def nodeHeight : Node → Nat
  | Node.file _ _ => 1
  | Node.dir cs _ _ => 1 + mapHeight cs

/-- Height of a child map: maximum child height. -/
def mapHeight : NodeMap → Nat
  | NodeMap.nil => 0
  | NodeMap.cons _ c rest => max (nodeHeight c) (mapHeight rest)

end

/-- Children of a node (empty for files). -/
def childrenOf : Node → NodeMap
  | Node.file _ _ => NodeMap.nil
  | Node.dir cs _ _ => cs

/-! ## CID comparison

Content identifiers are value hashes: CID equality is value equality on the
encoded block, and distinct contents yield distinct CIDs.  We therefore
model CID comparison by a structural three-valued comparison of node
values: `cmpNode a b = .eq` models `a.cid == b.cid`, and the induced total
order models the lexicographic order on CID strings used for merge
tie-breaking. -/

mutual

/-- Modelled from the spec: comparison of node CIDs (§3: CID equality is
value equality on contents; two distinct CIDs denote distinct contents), as
a structural comparison of node values. -/
def cmpNode : Node → Node → Ordering
  | Node.file c p, Node.file c' p' =>
      match listNatCmp c c' with
      | Ordering.eq => cmpPrev p p'
      | o => o
  | Node.file _ _, Node.dir _ _ _ => Ordering.lt
  | Node.dir _ _ _, Node.file _ _ => Ordering.gt
  | Node.dir cs p m, Node.dir cs' p' m' =>
      match cmpMap cs cs' with
      | Ordering.eq =>
          match cmpPrev p p' with
          | Ordering.eq => cmpPrev m m'
          | o => o
      | o => o

/-- Comparison of optional links. -/
def cmpPrev : PrevLink → PrevLink → Ordering
  | PrevLink.none, PrevLink.none => Ordering.eq
  | PrevLink.none, PrevLink.some _ => Ordering.lt
  | PrevLink.some _, PrevLink.none => Ordering.gt
  | PrevLink.some a, PrevLink.some b => cmpNode a b

/-- Comparison of child maps. -/
def cmpMap : NodeMap → NodeMap → Ordering
  | NodeMap.nil, NodeMap.nil => Ordering.eq
  | NodeMap.nil, NodeMap.cons _ _ _ => Ordering.lt
  | NodeMap.cons _ _ _, NodeMap.nil => Ordering.gt
  | NodeMap.cons n c r, NodeMap.cons n' c' r' =>
      match strCmp n n' with
      | Ordering.eq =>
          match cmpNode c c' with
          | Ordering.eq => cmpMap r r'
          | o => o
      | o => o

end

/-- CID equality of two nodes (`a.cid == b.cid`). -/
def nodeEq (a b : Node) : Bool :=
  match cmpNode a b with
  | Ordering.eq => true
  | _ => false

/-! ## Mutation engine

Modelled from the spec §4.4: every mutation resolves the path, applies the
change at the leaf and rewrites the spine upward; every rewritten spine node
links the prior version of itself through `previous`.  Nodes created fresh
(new files, new intermediate directories, a never-committed empty root) have
no `previous`. -/

/-- Modelled from the spec: build a fresh subtree holding `content` at the
given path below the returned node; fresh nodes carry no history. -/
def freshTree : List String → List Nat → Node
  | [], c => Node.file c PrevLink.none
  | n :: rest, c =>
      Node.dir (NodeMap.cons n (freshTree rest c) NodeMap.nil) PrevLink.none PrevLink.none

/-- Modelled from the spec: build fresh empty nested directories. -/
def freshDirs : List String → Node
  | [] => Node.dir NodeMap.nil PrevLink.none PrevLink.none
  | n :: rest =>
      Node.dir (NodeMap.cons n (freshDirs rest) NodeMap.nil) PrevLink.none PrevLink.none

/-- Modelled from the spec: `write`/`Add` of a file at a path.  Overwrites an
existing file (linking it as the new file's `previous`); fails if the path
runs through or ends at a directory; rewrites the spine with `previous`
links. -/
def addNode : Node → List String → List Nat → Option Node
  | Node.dir cs p m, [n], content =>
      match lookupNM n cs with
      | Option.some (Node.dir _ _ _) => Option.none
      | Option.some (Node.file c0 p0) =>
          Option.some (Node.dir
            (insertNM n (Node.file content (PrevLink.some (Node.file c0 p0))) cs)
            (PrevLink.some (Node.dir cs p m)) PrevLink.none)
      | Option.none =>
          Option.some (Node.dir (insertNM n (Node.file content PrevLink.none) cs)
            (PrevLink.some (Node.dir cs p m)) PrevLink.none)
  | Node.dir cs p m, n :: r :: rest, content =>
      match lookupNM n cs with
      | Option.some (Node.file _ _) => Option.none
      | Option.some (Node.dir cs' p' m') =>
          (addNode (Node.dir cs' p' m') (r :: rest) content).map (fun child' =>
            Node.dir (insertNM n child' cs) (PrevLink.some (Node.dir cs p m)) PrevLink.none)
      | Option.none =>
          Option.some (Node.dir (insertNM n (freshTree (r :: rest) content) cs)
            (PrevLink.some (Node.dir cs p m)) PrevLink.none)
  | Node.dir _ _ _, [], _ => Option.none
  | Node.file _ _, _, _ => Option.none

/-- Modelled from the spec: `rm` removes a link from the immediate parent and
rewrites the spine; fails if the parent is a file or the link is missing. -/
def rmNode : Node → List String → Option Node
  | Node.dir cs p m, [n] =>
      match lookupNM n cs with
      | Option.some _ =>
          Option.some (Node.dir (removeNM n cs) (PrevLink.some (Node.dir cs p m)) PrevLink.none)
      | Option.none => Option.none
  | Node.dir cs p m, n :: r :: rest =>
      match lookupNM n cs with
      | Option.some (Node.dir cs' p' m') =>
          (rmNode (Node.dir cs' p' m') (r :: rest)).map (fun child' =>
            Node.dir (insertNM n child' cs) (PrevLink.some (Node.dir cs p m)) PrevLink.none)
      | _ => Option.none
  | _, _ => Option.none

/-- Modelled from the spec: `mkdir` creates missing intermediate directories
and fails if a non-directory exists at a prefix of the path. -/
def mkdirNode : Node → List String → Option Node
  | t, [] => Option.some t
  | Node.dir cs p m, n :: rest =>
      match lookupNM n cs with
      | Option.some (Node.file _ _) => Option.none
      | Option.some (Node.dir cs' p' m') =>
          (mkdirNode (Node.dir cs' p' m') rest).map (fun child' =>
            Node.dir (insertNM n child' cs) (PrevLink.some (Node.dir cs p m)) PrevLink.none)
      | Option.none =>
          Option.some (Node.dir (insertNM n (freshDirs rest) cs)
            (PrevLink.some (Node.dir cs p m)) PrevLink.none)
  | Node.file _ _, _ :: _ => Option.none

/-- Path resolution (`Get`). -/
def getNode : Node → List String → Option Node
  | t, [] => Option.some t
  | Node.dir cs _ _, n :: rest =>
      match lookupNM n cs with
      | Option.some c => getNode c rest
      | Option.none => Option.none
  | Node.file _ _, _ :: _ => Option.none

/-- An empty, never-committed tree (`NewEmptyTree`). -/
def emptyRoot : Node := Node.dir NodeMap.nil PrevLink.none PrevLink.none

/-- Modelled from the spec: an `Add` on a filesystem root.  A root of
`Option.none` is the fresh, never-committed empty tree, so the first
committed root carries no `previous` link (matching the source tests, where
the first mutation yields history length 1). -/
def rootAdd (root : Option Node) (path : List String) (content : List Nat) : Option Node :=
  match root with
  | Option.none =>
      match path with
      | [] => Option.none
      | _ :: _ => Option.some (freshTree path content)
  | Option.some r => addNode r path content

/-! ## History -/

mutual

/-- Modelled from the spec: the history of a node, newest first, obtained by
walking `previous` links until a node without `previous` (§4.5). -/
def histList : Node → List Node
  | Node.file c p => Node.file c p :: histPrev p
  | Node.dir cs p m => Node.dir cs p m :: histPrev p

/-- History reachable through an optional link. -/
def histPrev : PrevLink → List Node
  | PrevLink.none => []
  | PrevLink.some n => histList n

end

/-- Whether `x`'s CID appears in `n`'s history. -/
def histContains (n : Node) (x : Node) : Bool :=
  (histList n).any (fun a => nodeEq a x)

/-- Length of a node's history. -/
def histLen (n : Node) : Nat := (histList n).length

/-! ## Skeleton -/

/-- Modelled from the spec: the skeleton mirrors the tree shape; each entry
records whether the child is a file and, for directories, the sub-skeleton.
Files have `isFile = true` and no sub-skeleton (§3). -/
inductive Skeleton where
  | nil
  | cons (name : String) (isFile : Bool) (sub : Skeleton) (rest : Skeleton)

mutual

/-- Skeleton of a child map. -/
def skeletonOfMap : NodeMap → Skeleton
  | NodeMap.nil => Skeleton.nil
  | NodeMap.cons n c rest => Skeleton.cons n (skelIsFile c) (skeletonSub c) (skeletonOfMap rest)

/-- Whether a node is a file, for its skeleton entry. -/
def skelIsFile : Node → Bool
  | Node.file _ _ => true
  | Node.dir _ _ _ => false

/-- Sub-skeleton of a node: empty for files, recursive for directories. -/
def skeletonSub : Node → Skeleton
  | Node.file _ _ => Skeleton.nil
  | Node.dir cs _ _ => skeletonOfMap cs

end

/-- The skeleton of a tree node (`Skeleton()`); fails on files. -/
def skeletonOf : Node → Option Skeleton
  | Node.dir cs _ _ => Option.some (skeletonOfMap cs)
  | Node.file _ _ => Option.none

/-! ## Userland view

The observable filesystem content: directory structure and file contents,
with `previous`/`merge` pointers and any other commit metadata stripped.
Used to state merge commutativity "up to CID". -/

mutual

/-- Observable content of a node: file bytes or named children. -/
inductive ViewT : Type where
  | vfile (content : List Nat)
  | vdir (children : ViewMap)

/-- Observable content of a child map. -/
inductive ViewMap : Type where
  | nil
  | cons (name : String) (v : ViewT) (rest : ViewMap)

end

mutual

/-- Strip history pointers from a node, leaving structure and contents. -/
def viewNode : Node → ViewT
  | Node.file c _ => ViewT.vfile c
  | Node.dir cs _ _ => ViewT.vdir (viewMap cs)

/-- Strip history pointers from a child map. -/
def viewMap : NodeMap → ViewMap
  | NodeMap.nil => ViewMap.nil
  | NodeMap.cons n c rest => ViewMap.cons n (viewNode c) (viewMap rest)

end

/-! ## Merge

The `base` package's merge types are present in the source excerpt and are
embedded directly; the tree merge algorithm itself is modelled from §4.5 of
the specification. -/

/-- Merge outcome label, from `base`: `MTInSync`. -/
def MTInSync : String := "in-sync"

/-- Merge outcome label, from `base`: `MTLocalAhead`. -/
def MTLocalAhead : String := "local-ahead-of-remote"

/-- Merge outcome label, from `base`: `MTFastForward`. -/
def MTFastForward : String := "fast-forward"

/-- Merge outcome label, from `base`: `MTMergeCommit`. -/
def MTMergeCommit : String := "merge-commit"

/-- Error message of `base.ErrNoCommonHistory`. -/
def ErrNoCommonHistory : String := "no common history"

/-- Name sorting: ordered insert without duplicates. -/
def insName (x : String) : List String → List String
  | [] => [x]
  | y :: ys =>
      if x = y then y :: ys
      else if strLt x y then x :: y :: ys
      else y :: insName x ys

/-- Name sorting: insertion sort that also removes duplicates. -/
def sortDedup : List String → List String
  | [] => []
  | x :: xs => insName x (sortDedup xs)

/-- Modelled from the spec: the name set `children(L) ∪ children(R)`,
canonically ordered. -/
def unionNames (a b : List String) : List String := sortDedup (a ++ b)

/-- Modelled from the spec: generation depth — the length of the `previous`
chain from a node back to the target CID (the LCA's entry); the full chain
length when the target is absent (§4.5 generation counting). -/
def depthTo (n : Node) (target : Option Node) : Nat :=
  match target with
  | Option.none => (histList n).length
  | Option.some t => ((histList n).takeWhile (fun a => !(nodeEq a t))).length

/-- Modelled from the spec: conflict resolution between two divergent leaves
sharing a name — the side with the greater history depth from the LCA wins;
ties are broken by the greater CID (§4.5). -/
def pickWinner (lc rc : Node) (target : Option Node) : Node :=
  if depthTo rc target < depthTo lc target then lc
  else if depthTo lc target < depthTo rc target then rc
  else
    match cmpNode lc rc with
    | Ordering.gt => lc
    | _ => rc

/-- Child map of the LCA's entry for a name, when that entry is a directory. -/
def ancSubMap (acs : NodeMap) (n : String) : NodeMap :=
  match lookupNM n acs with
  | Option.some (Node.dir cs _ _) => cs
  | _ => NodeMap.nil

/-- The LCA's entry for a name, if any. -/
def ancEntry (acs : NodeMap) (n : String) : Option Node :=
  lookupNM n acs

/-- Modelled from the spec: resolution for a name present on both sides
(§4.5).  Same CID on both sides: unchanged.  Otherwise files (or a
file/tree conflict) resolve by history depth with the CID tie-break, and
trees recurse through `recFn`. -/
def resolveBoth (recFn : NodeMap → NodeMap → NodeMap → NodeMap)
    (acs : NodeMap) (n : String) (lc rc : Node) : Option Node :=
  if nodeEq lc rc then Option.some lc
  else
    match lc, rc with
    | Node.dir lcs' lp lm, Node.dir rcs' rp rm =>
        Option.some (Node.dir (recFn lcs' rcs' (ancSubMap acs n))
          (PrevLink.some (Node.dir lcs' lp lm)) (PrevLink.some (Node.dir rcs' rp rm)))
    | _, _ => Option.some (pickWinner lc rc (ancEntry acs n))

/-- Modelled from the spec: resolution for a name present on a single side:
kept, unless the name exists at the LCA with the same CID — then the other
side deleted it and the deletion wins; an edited entry survives (§4.5). -/
def resolveOne (acs : NodeMap) (n : String) (c : Node) : Option Node :=
  match lookupNM n acs with
  | Option.some ac => if nodeEq c ac then Option.none else Option.some c
  | Option.none => Option.some c

/-- Modelled from the spec: merge resolution for one name of the united
child set (§4.5), dispatching on which sides carry the name. -/
def resolveChild (recFn : NodeMap → NodeMap → NodeMap → NodeMap)
    (lcs rcs acs : NodeMap) (n : String) : Option Node :=
  match lookupNM n lcs, lookupNM n rcs with
  | Option.some lc, Option.some rc => resolveBoth recFn acs n lc rc
  | Option.some lc, Option.none => resolveOne acs n lc
  | Option.none, Option.some rc => resolveOne acs n rc
  | Option.none, Option.none => Option.none

/-- Merge resolution over a list of names, dropping deleted entries. -/
def mergeGo (recFn : NodeMap → NodeMap → NodeMap → NodeMap)
    (lcs rcs acs : NodeMap) : List String → NodeMap
  | [] => NodeMap.nil
  | n :: rest =>
      match resolveChild recFn lcs rcs acs n with
      | Option.some e => NodeMap.cons n e (mergeGo recFn lcs rcs acs rest)
      | Option.none => mergeGo recFn lcs rcs acs rest

/-- Modelled from the spec: merge two directories' child maps against the
LCA's child map (§4.5), fuelled for structural termination; the fuel is
always ample at every call site. -/
def mergeChildren : Nat → NodeMap → NodeMap → NodeMap → NodeMap
  | 0, _, _, _ => NodeMap.nil
  | fuel + 1, lcs, rcs, acs =>
      mergeGo (mergeChildren fuel) lcs rcs acs (unionNames (namesOf lcs) (namesOf rcs))

/-- Modelled from the spec: produce the merge-commit node for two divergent
roots with LCA `anc`.  For directories the merged node links
`previous = L.cid` and `merge = R.cid` (§4.5); a conflicting non-directory
root resolves by depth with CID tie-break. -/
def mergeRoot (l r : Node) (anc : Node) : Node :=
  match l, r with
  | Node.dir lcs lp lm, Node.dir rcs rp rm =>
      Node.dir
        (mergeChildren (nodeHeight (Node.dir lcs lp lm) + nodeHeight (Node.dir rcs rp rm))
          lcs rcs (childrenOf anc))
        (PrevLink.some (Node.dir lcs lp lm)) (PrevLink.some (Node.dir rcs rp rm))
  | _, _ => pickWinner l r (Option.some anc)

/-- Modelled from the spec: lowest common ancestor — the first entry of the
local history that also appears in the remote history (§4.5). -/
def lcaOf (l r : Node) : Option Node :=
  (histList l).find? (fun a => histContains r a)

/-- Result of a merge: outcome label and resulting root. -/
structure MergeResultM where
  type : String
  node : Node

/-- Modelled from the spec: `Merge` classification (§4.5).  `InSync` when the
CIDs agree; `LocalAhead` when the remote CID appears in the local history;
`FastForward` when the local CID appears in the remote history (the remote
root is adopted); `MergeCommit` when the histories diverge from a common
ancestor; `ErrNoCommonHistory` when no ancestor is found. -/
def merge (l r : Node) : Except String MergeResultM :=
  if nodeEq l r then Except.ok ⟨MTInSync, l⟩
  else if histContains l r then Except.ok ⟨MTLocalAhead, l⟩
  else if histContains r l then Except.ok ⟨MTFastForward, r⟩
  else
    match lcaOf l r with
    | Option.some anc => Except.ok ⟨MTMergeCommit, mergeRoot l r anc⟩
    | Option.none => Except.error ErrNoCommonHistory

/-! ## `base.RemoteSync` (embedded from the source excerpt) -/

/-- From `base`: `RSSInSync` (iota 0). -/
def RSSInSync : Nat := 0

/-- From `base`: `RSSLocalAhead`. -/
def RSSLocalAhead : Nat := 1

/-- From `base`: `RSSRemoteAhead`. -/
def RSSRemoteAhead : Nat := 2

/-- From `base`: `RSSDiverged`. -/
def RSSDiverged : Nat := 3

/-- From `base`: `MergeResult`; only `Type` is set by
`RemoteSync.MergeResult` (its `Type` field, which is not a legal Lean name, is rendered `MType`); the remaining fields keep their zero values. -/
structure GoMergeResult where
  MType : String
  Cid : Nat := 0
  Userland : Nat := 0
  Metadata : Nat := 0
  Size : Int := 0
  IsFile : Bool := false

/-- From `base`: `RemoteSync` (the status is a `uint8`, modelled as `Nat`). -/
structure RemoteSync where
  Status : Nat
  DivergedAt : Option Nat := Option.none
  LocalGen : Int := 0
  RemoteGen : Int := 0

/-- From `base`: `RemoteSync.MergeResult`, a direct transcription of the
`switch` over the four statuses with an `unknown` default. -/
def RemoteSync.MergeResult (rs : RemoteSync) : GoMergeResult :=
  if rs.Status = RSSInSync then { MType := MTInSync }
  else if rs.Status = RSSLocalAhead then { MType := MTLocalAhead }
  else if rs.Status = RSSRemoteAhead then { MType := MTFastForward }
  else if rs.Status = RSSDiverged then { MType := MTMergeCommit }
  else { MType := "unknown" }

/-! ## External state (embedded from the source's state file and `cmd.go`) -/

/-- From the source: `wnfs.Key`, a 32-byte symmetric key. -/
structure Key where
  bytes : List Nat
deriving DecidableEq

/-- Modelled from the spec: `wnfs.NewKey` samples a fresh 32-byte key (§6).
The implementation of `NewKey` is not part of the excerpt; the random draw
is modelled as a fixed nonzero 32-byte value (the all-zero draw has
probability 2⁻²⁵⁶ and is disregarded). -/
def NewKey : Key := ⟨List.replicate 32 1⟩

/-- Modelled from the spec: `Key.IsEmpty` — whether the key is the zero
value, as produced by JSON-decoding a record with no `RootKey` field. -/
def Key.IsEmpty (k : Key) : Bool := k.bytes = List.replicate 32 0

/-- From the source: the persisted `ExternalState` record
`{RootCID, RootKey, PrivateRootName}` plus the unexported file path. -/
structure ExternalState where
  path : String
  RootCID : Nat
  RootKey : Key
  PrivateRootName : List Nat

/-- Outcome of `ioutil.ReadFile` + `json.Unmarshal` on the state file:
the file may be absent, unreadable, undecodable, or decode to a record. -/
inductive ReadFileResult where
  | notExist
  | otherErr
  | badJSON
  | ok (s : ExternalState)

/-- From the source: `LoadOrCreateExternalState`.  `read` is the outcome of
reading the state file and `writeOk` whether `(*ExternalState).Write`
succeeds; the returned flag records whether the file was (re)written. -/
def LoadOrCreateExternalState (path : String) (read : ReadFileResult) (writeOk : Bool) :
    Except String (ExternalState × Bool) :=
  match read with
  | ReadFileResult.notExist =>
      if writeOk then
        Except.ok ({ path := path, RootCID := 0, RootKey := NewKey,
                     PrivateRootName := [] }, true)
      else Except.error "write failed"
  | ReadFileResult.otherErr => Except.error "read failed"
  | ReadFileResult.badJSON => Except.error "unmarshal failed"
  | ReadFileResult.ok s0 =>
      if ({ s0 with path := path } : ExternalState).RootKey.IsEmpty then
        if writeOk then
          Except.ok ({ s0 with path := path, RootKey := NewKey }, true)
        else Except.error "write failed"
      else Except.ok ({ s0 with path := path }, false)

/-! ## The command-line mutation wrapper (embedded from `cmd.go`)

`cmd.go` opens the filesystem, runs one mutation with `Commit: true` and
always (via `defer`) rewrites the external state record from the handle.
The core's mutation atomicity (§5: a failure before commit leaves the
handle's root unchanged) is modelled by `applyMutation` returning either a
new handle or an error, the handle being left untouched on error. -/

/-- The filesystem handle as `cmd.go` sees it: current root (`Option.none`
for a never-committed empty filesystem), root key and private root name. -/
structure WNFS where
  root : Option Node
  rootKey : Key
  privateName : List Nat

/-- The handle's current root node, whose value determines `fs.Cid()`. -/
def WNFS.cid (fs : WNFS) : Node := fs.root.getD emptyRoot

/-- The four mutating commands of `cmd.go`: `mkdir`, `write`, `cp`, `rm`.
For `cp`, `src` is the content of the copied-in local file if opening it
succeeds. -/
inductive Mutation where
  | mkdir (path : List String)
  | write (path : List String) (content : List Nat)
  | cp (path : List String) (src : Option (List Nat))
  | rm (path : List String)

/-- Modelled from the spec: run one mutation against the handle (§4.4, §5).
On success the handle holds the newly committed root; on failure the
mutation surfaces its error and the handle is unchanged — the root is only
replaced once the full spine has been committed. -/
def applyMutation (fs : WNFS) : Mutation → Except String WNFS
  | Mutation.mkdir p =>
      match mkdirNode (fs.root.getD emptyRoot) p with
      | Option.some r => Except.ok { fs with root := Option.some r }
      | Option.none => Except.error "mkdir failed"
  | Mutation.write p c =>
      match rootAdd fs.root p c with
      | Option.some r => Except.ok { fs with root := Option.some r }
      | Option.none => Except.error "write failed"
  | Mutation.cp p src =>
      match src with
      | Option.none => Except.error "open failed"
      | Option.some c =>
          match rootAdd fs.root p c with
          | Option.some r => Except.ok { fs with root := Option.some r }
          | Option.none => Except.error "cp failed"
  | Mutation.rm p =>
      match rmNode (fs.root.getD emptyRoot) p with
      | Option.some r => Except.ok { fs with root := Option.some r }
      | Option.none => Except.error "rm failed"

/-- The persisted external record, as written by `updateExternalState`. -/
structure StateRecord where
  RootCID : Node
  RootKey : Key
  PrivateRootName : List Nat

/-- From `cmd.go`: `updateExternalState` reads `fs.Cid()`, `fs.RootKey()`
and `fs.PrivateName()` into the record and writes it. -/
def recordOf (fs : WNFS) : StateRecord :=
  ⟨fs.cid, fs.rootKey, fs.privateName⟩

/-- A CLI session: the open handle and the currently persisted record. -/
structure Session where
  fs : WNFS
  record : StateRecord

/-- From `cmd.go`: a mutating command's `Action` runs the mutation and then
— via `defer updateExternalState()` — rewrites the external record from the
handle, whether or not the mutation succeeded.  Returns the new session and
the surfaced error, if any. -/
def runCommand (sess : Session) (m : Mutation) : Session × Option String :=
  match applyMutation sess.fs m with
  | Except.ok fs' => (⟨fs', recordOf fs'⟩, Option.none)
  | Except.error e => (⟨sess.fs, recordOf sess.fs⟩, Option.some e)

/-! ## Accessors and test fixtures

The fixtures replay, step by step, the scenarios of `public_test.go` (which
is part of the source excerpt) against the model. -/

/-- The `previous` link of a node. -/
def previousOf : Node → PrevLink
  | Node.file _ p => p
  | Node.dir _ p _ => p

/-- The `merge` link of a node (files carry none). -/
def mergeLinkOf : Node → PrevLink
  | Node.file _ _ => PrevLink.none
  | Node.dir _ _ m => m

/-- Whether a node is a directory. -/
def isDirNode : Node → Bool
  | Node.file _ _ => false
  | Node.dir _ _ _ => true

/-- File bytes from a string, for fixtures. -/
def bytes (s : String) : List Nat := s.data.map Char.toNat

/-- A file view with the given string content, for fixtures. -/
def vfileOf (s : String) : ViewT := ViewT.vfile (bytes s)

/-- Fixture (S1, `TestTreeSkeleton`): three adds from empty. -/
def s1root : Option Node :=
  (rootAdd Option.none ["foo", "bar", "baz", "hello.txt"] (bytes "hello!")).bind fun r =>
  (addNode r ["bar", "baz", "goodbye"] (bytes "goodbye")).bind fun r =>
  (addNode r ["some.json"] (bytes "\x7b\x22oh\x22:\x22hai\x7d"))

/-- Expected skeleton of S1, as in `TestTreeSkeleton`. -/
def s1expect : Skeleton :=
  Skeleton.cons "bar" false
    (Skeleton.cons "baz" false
      (Skeleton.cons "goodbye" true Skeleton.nil Skeleton.nil) Skeleton.nil)
    (Skeleton.cons "foo" false
      (Skeleton.cons "bar" false
        (Skeleton.cons "baz" false
          (Skeleton.cons "hello.txt" true Skeleton.nil Skeleton.nil) Skeleton.nil)
        Skeleton.nil)
      (Skeleton.cons "some.json" true Skeleton.nil Skeleton.nil))

/-- Fixture (S2, `TestHistory`): six adds from empty. -/
def s2root : Option Node :=
  (rootAdd Option.none ["hello.txt"] (bytes "hello!")).bind fun r =>
  (addNode r ["salut.txt"] (bytes "salut!")).bind fun r =>
  (addNode r ["salut.txt"] (bytes "salut 2!")).bind fun r =>
  (addNode r ["dir", "goodbye.txt"] (bytes "goodbye!")).bind fun r =>
  (addNode r ["dir", "goodbye.txt"] (bytes "goodbye 2!")).bind fun r =>
  (addNode r ["dir", "bonjour.txt"] (bytes "bonjour!"))

/-- Fixture: the shared ancestor root holding only `hello.txt`
(`a` after its first `Add` in the merge tests). -/
def fixA1 : Option Node := rootAdd Option.none ["hello.txt"] (bytes "hello!")

/-- Fixture (`no_conflict_merge`): local adds `bonjour.txt`. -/
def ncA2 : Option Node := fixA1.bind fun a => addNode a ["bonjour.txt"] (bytes "bonjour!")

/-- Fixture (`no_conflict_merge`): remote adds `goodbye.txt`. -/
def ncB2 : Option Node := fixA1.bind fun a => addNode a ["goodbye.txt"] (bytes "goodbye!")

/-- Fixture (`remote_overwrites_local_file`): remote overwrites `hello.txt`. -/
def roB : Option Node :=
  fixA1.bind fun a => addNode a ["hello.txt"] (bytes "hello **2**, written on remote")

/-- Fixture (`remote_overwrites_local_file`): local adds `goodbye.txt`. -/
def roA : Option Node := fixA1.bind fun a => addNode a ["goodbye.txt"] (bytes "goodbye!")

/-- Fixture (`local_overwrites_remote_file`): remote overwrites once. -/
def loB : Option Node := fixA1.bind fun a => addNode a ["hello.txt"] (bytes "hello **2** (remote)")

/-- Fixture (`local_overwrites_remote_file`): local overwrites twice. -/
def loA : Option Node :=
  (fixA1.bind fun a => addNode a ["hello.txt"] (bytes "hello **2**")).bind
    fun a => addNode a ["hello.txt"] (bytes "hello **3**")

/-- Fixture (`remote_deletes_local_file`): remote removes `hello.txt`. -/
def rdB : Option Node := fixA1.bind fun a => rmNode a ["hello.txt"]

/-- Fixture (`remote_deletes_local_file`): local adds `goodbye.txt`. -/
def rdA : Option Node := fixA1.bind fun a => addNode a ["goodbye.txt"] (bytes "goodbye!")

/-- The node behind an optional fixture (the fixtures are all defined). -/
def nodeOf (r : Option Node) : Node := r.getD emptyRoot

/-- The result of a merge known to succeed (fixtures only). -/
def mergeOk (l r : Node) : MergeResultM :=
  match merge l r with
  | Except.ok res => res
  | Except.error _ => ⟨"error", emptyRoot⟩

/-! ## Comparator lemmas -/

theorem natCmp_refl (a : Nat) : natCmp a a = Ordering.eq := by
  simp [natCmp, Nat.blt_eq]

theorem bltT {a b : Nat} (h : a < b) : Nat.blt a b = true := by
  rw [Nat.blt_eq]
  exact h

theorem bltF {a b : Nat} (h : ¬a < b) : Nat.blt a b = false := by
  cases hb : Nat.blt a b
  · rfl
  · rw [Nat.blt_eq] at hb
    exact absurd hb h

theorem natCmp_eq {a b : Nat} (h : natCmp a b = Ordering.eq) : a = b := by
  unfold natCmp at h
  split at h <;> rename_i h1
  · exact absurd h (by simp)
  · split at h <;> rename_i h2
    · exact absurd h (by simp)
    · rw [Bool.not_eq_true] at h1 h2
      have hab : ¬a < b := fun hl => by rw [bltT hl] at h1; exact Bool.noConfusion h1
      have hba : ¬b < a := fun hl => by rw [bltT hl] at h2; exact Bool.noConfusion h2
      omega

theorem natCmp_lt_iff {a b : Nat} : natCmp a b = Ordering.lt ↔ a < b := by
  unfold natCmp
  split <;> rename_i h
  · simp [Nat.blt_eq] at h
    simp [h]
  · split <;> rename_i h'
    · simp [Nat.blt_eq] at h h'
      simp
      omega
    · simp [Nat.blt_eq] at h h'
      simp
      omega

theorem natCmp_swap (a b : Nat) : (natCmp a b).swap = natCmp b a := by
  unfold natCmp
  rcases Nat.lt_trichotomy a b with h | h | h
  · rw [bltT h, bltF (by omega : ¬b < a)]
    rfl
  · subst h
    rw [bltF (by omega : ¬a < a)]
    rfl
  · rw [bltT h, bltF (by omega : ¬a < b)]
    rfl

theorem natCmp_lt_trans {a b c : Nat} (h1 : natCmp a b = Ordering.lt)
    (h2 : natCmp b c = Ordering.lt) : natCmp a c = Ordering.lt := by
  rw [natCmp_lt_iff] at h1 h2 ⊢
  omega

theorem lexCmp_refl (f : α → Nat) : ∀ l : List α, lexCmp f l l = Ordering.eq
  | [] => rfl
  | a :: as => by
      simp only [lexCmp, natCmp_refl]
      exact lexCmp_refl f as

theorem lexCmp_eq (f : α → Nat) (hf : Function.Injective f) :
    ∀ l m : List α, lexCmp f l m = Ordering.eq → l = m
  | [], [], _ => rfl
  | [], _ :: _, h => by simp [lexCmp] at h
  | _ :: _, [], h => by simp [lexCmp] at h
  | a :: as, b :: bs, h => by
      simp only [lexCmp] at h
      cases hc : natCmp (f a) (f b) <;> rw [hc] at h
      · exact absurd h (by simp)
      · have hab : a = b := hf (natCmp_eq hc)
        have : as = bs := lexCmp_eq f hf as bs h
        rw [hab, this]
      · exact absurd h (by simp)

theorem lexCmp_swap (f : α → Nat) :
    ∀ l m : List α, (lexCmp f l m).swap = lexCmp f m l
  | [], [] => rfl
  | [], _ :: _ => rfl
  | _ :: _, [] => rfl
  | a :: as, b :: bs => by
      simp only [lexCmp]
      rw [← natCmp_swap (f a) (f b)]
      cases natCmp (f a) (f b)
      · rfl
      · exact lexCmp_swap f as bs
      · rfl

theorem lexCmp_lt_trans (f : α → Nat) :
    ∀ l m k : List α, lexCmp f l m = Ordering.lt → lexCmp f m k = Ordering.lt →
      lexCmp f l k = Ordering.lt
  | [], [], k, h1, _ => by simp [lexCmp] at h1
  | [], _ :: _, [], _, h2 => by simp [lexCmp] at h2
  | [], _ :: _, _ :: _, _, _ => rfl
  | _ :: _, [], _, h1, _ => by simp [lexCmp] at h1
  | _ :: _, _ :: _, [], _, h2 => by simp [lexCmp] at h2
  | a :: as, b :: bs, c :: cs, h1, h2 => by
      simp only [lexCmp] at h1 h2 ⊢
      cases hab : natCmp (f a) (f b) <;> rw [hab] at h1
      · cases hbc : natCmp (f b) (f c) <;> rw [hbc] at h2
        · rw [natCmp_lt_trans hab hbc]
        · rw [natCmp_eq hbc] at hab
          rw [hab]
        · exact absurd h2 (by simp)
      · cases hbc : natCmp (f b) (f c) <;> rw [hbc] at h2
        · rw [natCmp_eq hab, hbc]
        · rw [natCmp_eq hab, natCmp_eq hbc, natCmp_refl]
          exact lexCmp_lt_trans f as bs cs h1 h2
        · exact absurd h2 (by simp)
      · exact absurd h1 (by simp)

theorem charToNat_inj : Function.Injective Char.toNat :=
  fun _ _ h => Char.ext (UInt32.ext h)

theorem stringData_inj {a b : String} (h : a.data = b.data) : a = b := by
  cases a; cases b; exact congrArg String.mk h

theorem strCmp_refl (a : String) : strCmp a a = Ordering.eq :=
  lexCmp_refl Char.toNat a.data

theorem strCmp_eq {a b : String} (h : strCmp a b = Ordering.eq) : a = b :=
  stringData_inj (lexCmp_eq Char.toNat charToNat_inj a.data b.data h)

theorem strCmp_swap (a b : String) : (strCmp a b).swap = strCmp b a :=
  lexCmp_swap Char.toNat a.data b.data

theorem strCmp_lt_trans {a b c : String} (h1 : strCmp a b = Ordering.lt)
    (h2 : strCmp b c = Ordering.lt) : strCmp a c = Ordering.lt :=
  lexCmp_lt_trans Char.toNat a.data b.data c.data h1 h2

theorem listNatCmp_refl (l : List Nat) : listNatCmp l l = Ordering.eq :=
  lexCmp_refl (fun x => x) l

theorem listNatCmp_eq {l m : List Nat} (h : listNatCmp l m = Ordering.eq) : l = m :=
  lexCmp_eq (fun x => x) (fun _ _ h => h) l m h

theorem listNatCmp_swap (l m : List Nat) : (listNatCmp l m).swap = listNatCmp m l :=
  lexCmp_swap (fun x => x) l m

theorem strLt_iff {a b : String} : strLt a b = true ↔ strCmp a b = Ordering.lt := by
  unfold strLt
  cases strCmp a b <;> simp

theorem strLt_irrefl (a : String) : strLt a a = false := by
  unfold strLt
  rw [strCmp_refl]

theorem strLt_asymm {a b : String} (h : strLt a b = true) : strLt b a = false := by
  rw [strLt_iff] at h
  unfold strLt
  rw [← strCmp_swap a b, h]
  rfl

theorem strLt_connected {a b : String} (h : a ≠ b) :
    strLt a b = true ∨ strLt b a = true := by
  rw [strLt_iff, strLt_iff, ← strCmp_swap a b]
  cases hc : strCmp a b
  · left; rfl
  · exact absurd (strCmp_eq hc) h
  · right; rfl

theorem strLt_trans {a b c : String} (h1 : strLt a b = true) (h2 : strLt b c = true) :
    strLt a c = true := by
  rw [strLt_iff] at h1 h2 ⊢
  exact strCmp_lt_trans h1 h2

/-! ## CID-comparison lawfulness -/

mutual

theorem cmpNode_refl : ∀ a : Node, cmpNode a a = Ordering.eq
  | Node.file c p => by
      simp only [cmpNode, listNatCmp_refl]
      exact cmpPrev_refl p
  | Node.dir cs p m => by
      simp only [cmpNode, cmpMap_refl cs, cmpPrev_refl p]
      exact cmpPrev_refl m

theorem cmpPrev_refl : ∀ p : PrevLink, cmpPrev p p = Ordering.eq
  | PrevLink.none => rfl
  | PrevLink.some n => cmpNode_refl n

theorem cmpMap_refl : ∀ cs : NodeMap, cmpMap cs cs = Ordering.eq
  | NodeMap.nil => rfl
  | NodeMap.cons n c rest => by
      simp only [cmpMap, strCmp_refl, cmpNode_refl c]
      exact cmpMap_refl rest

end

mutual

theorem cmpNode_eq : ∀ a b : Node, cmpNode a b = Ordering.eq → a = b
  | Node.file c p, Node.file c' p', h => by
      simp only [cmpNode] at h
      cases hc : listNatCmp c c' <;> rw [hc] at h
      · exact absurd h (by simp)
      · rw [listNatCmp_eq hc, cmpPrev_eq p p' h]
      · exact absurd h (by simp)
  | Node.file _ _, Node.dir _ _ _, h => by simp [cmpNode] at h
  | Node.dir _ _ _, Node.file _ _, h => by simp [cmpNode] at h
  | Node.dir cs p m, Node.dir cs' p' m', h => by
      simp only [cmpNode] at h
      cases hc : cmpMap cs cs' <;> rw [hc] at h
      · exact absurd h (by simp)
      · cases hp : cmpPrev p p' <;> rw [hp] at h
        · exact absurd h (by simp)
        · rw [cmpMap_eq cs cs' hc, cmpPrev_eq p p' hp, cmpPrev_eq m m' h]
        · exact absurd h (by simp)
      · exact absurd h (by simp)

theorem cmpPrev_eq : ∀ p q : PrevLink, cmpPrev p q = Ordering.eq → p = q
  | PrevLink.none, PrevLink.none, _ => rfl
  | PrevLink.none, PrevLink.some _, h => by simp [cmpPrev] at h
  | PrevLink.some _, PrevLink.none, h => by simp [cmpPrev] at h
  | PrevLink.some a, PrevLink.some b, h => by
      rw [cmpNode_eq a b h]

theorem cmpMap_eq : ∀ cs ds : NodeMap, cmpMap cs ds = Ordering.eq → cs = ds
  | NodeMap.nil, NodeMap.nil, _ => rfl
  | NodeMap.nil, NodeMap.cons _ _ _, h => by simp [cmpMap] at h
  | NodeMap.cons _ _ _, NodeMap.nil, h => by simp [cmpMap] at h
  | NodeMap.cons n c r, NodeMap.cons n' c' r', h => by
      simp only [cmpMap] at h
      cases hn : strCmp n n' <;> rw [hn] at h
      · exact absurd h (by simp)
      · cases hc : cmpNode c c' <;> rw [hc] at h
        · exact absurd h (by simp)
        · rw [strCmp_eq hn, cmpNode_eq c c' hc, cmpMap_eq r r' h]
        · exact absurd h (by simp)
      · exact absurd h (by simp)

end

mutual

theorem cmpNode_swap : ∀ a b : Node, (cmpNode a b).swap = cmpNode b a
  | Node.file c p, Node.file c' p' => by
      simp only [cmpNode]
      rw [← listNatCmp_swap c c']
      cases listNatCmp c c'
      · rfl
      · exact cmpPrev_swap p p'
      · rfl
  | Node.file _ _, Node.dir _ _ _ => rfl
  | Node.dir _ _ _, Node.file _ _ => rfl
  | Node.dir cs p m, Node.dir cs' p' m' => by
      simp only [cmpNode]
      rw [← cmpMap_swap cs cs']
      cases cmpMap cs cs'
      · rfl
      · rw [← cmpPrev_swap p p']
        cases cmpPrev p p'
        · rfl
        · exact cmpPrev_swap m m'
        · rfl
      · rfl

theorem cmpPrev_swap : ∀ p q : PrevLink, (cmpPrev p q).swap = cmpPrev q p
  | PrevLink.none, PrevLink.none => rfl
  | PrevLink.none, PrevLink.some _ => rfl
  | PrevLink.some _, PrevLink.none => rfl
  | PrevLink.some a, PrevLink.some b => cmpNode_swap a b

theorem cmpMap_swap : ∀ cs ds : NodeMap, (cmpMap cs ds).swap = cmpMap ds cs
  | NodeMap.nil, NodeMap.nil => rfl
  | NodeMap.nil, NodeMap.cons _ _ _ => rfl
  | NodeMap.cons _ _ _, NodeMap.nil => rfl
  | NodeMap.cons n c r, NodeMap.cons n' c' r' => by
      simp only [cmpMap]
      rw [← strCmp_swap n n']
      cases strCmp n n'
      · rfl
      · rw [← cmpNode_swap c c']
        cases cmpNode c c'
        · rfl
        · exact cmpMap_swap r r'
        · rfl
      · rfl

end

theorem nodeEq_iff {a b : Node} : nodeEq a b = true ↔ a = b := by
  constructor
  · intro h
    unfold nodeEq at h
    cases hc : cmpNode a b <;> rw [hc] at h
    · exact Bool.noConfusion h
    · exact cmpNode_eq a b hc
    · exact Bool.noConfusion h
  · intro h
    subst h
    unfold nodeEq
    rw [cmpNode_refl]

theorem nodeEq_self (a : Node) : nodeEq a a = true := nodeEq_iff.mpr rfl

theorem nodeEq_false {a b : Node} (h : a ≠ b) : nodeEq a b = false := by
  cases he : nodeEq a b
  · rfl
  · exact absurd (nodeEq_iff.mp he) h

theorem nodeEq_symm (a b : Node) : nodeEq a b = nodeEq b a := by
  unfold nodeEq
  rw [← cmpNode_swap a b]
  cases cmpNode a b <;> rfl

/-! ## History lemmas -/

theorem histList_eq (n : Node) : histList n = n :: histPrev (previousOf n) := by
  cases n <;> rfl

theorem self_mem_histList (n : Node) : n ∈ histList n := by
  rw [histList_eq]
  exact List.mem_cons_self n _

mutual

theorem sizeOf_mem_histList : ∀ (n : Node) (a : Node), a ∈ histList n → sizeOf a ≤ sizeOf n
  | Node.file c p, a, h => by
      simp only [histList] at h
      rcases List.mem_cons.mp h with h' | h'
      · rw [h']
      · have := sizeOf_mem_histPrev p a h'
        have hs : sizeOf (Node.file c p) = 1 + sizeOf c + sizeOf p := by simp
        omega
  | Node.dir cs p m, a, h => by
      simp only [histList] at h
      rcases List.mem_cons.mp h with h' | h'
      · rw [h']
      · have := sizeOf_mem_histPrev p a h'
        have hs : sizeOf (Node.dir cs p m) = 1 + sizeOf cs + sizeOf p + sizeOf m := by simp
        omega

theorem sizeOf_mem_histPrev : ∀ (p : PrevLink) (a : Node), a ∈ histPrev p → sizeOf a < sizeOf p
  | PrevLink.none, a, h => by simp [histPrev] at h
  | PrevLink.some n, a, h => by
      have := sizeOf_mem_histList n a h
      have hs : sizeOf (PrevLink.some n) = 1 + sizeOf n := by simp
      omega

end

theorem mem_histList_sizeOf (a b : Node) (h : a ∈ histList b) :
    a = b ∨ sizeOf a < sizeOf b := by
  rw [histList_eq] at h
  rcases List.mem_cons.mp h with h' | h'
  · exact Or.inl h'
  · right
    have h1 := sizeOf_mem_histPrev (previousOf b) a h'
    cases b <;> · simp [previousOf] at h1 ⊢; omega

theorem histList_antisymm {a b : Node} (hab : a ∈ histList b) (hba : b ∈ histList a) :
    a = b := by
  rcases mem_histList_sizeOf a b hab with h | h
  · exact h
  · rcases mem_histList_sizeOf b a hba with h' | h'
    · exact h'.symm
    · omega

mutual

theorem find_common_node :
    ∀ (n : Node) (p : Node → Bool) (b : Node), (histList n).find? p = Option.some b →
      ∀ a, a ∈ histList n → p a = true → a ∈ histList b
  | Node.file c pl, p, b, hf, a, ha, hp => by
      simp only [histList] at hf ha
      cases hpn : p (Node.file c pl) <;> simp only [List.find?, hpn] at hf
      · rcases List.mem_cons.mp ha with h' | h'
        · rw [h'] at hp
          exact absurd hp (by rw [hpn]; exact Bool.noConfusion)
        · exact find_common_prev pl p b hf a h' hp
      · cases hf
        rw [histList_eq]
        exact ha
  | Node.dir cs pl m, p, b, hf, a, ha, hp => by
      simp only [histList] at hf ha
      cases hpn : p (Node.dir cs pl m) <;> simp only [List.find?, hpn] at hf
      · rcases List.mem_cons.mp ha with h' | h'
        · rw [h'] at hp
          exact absurd hp (by rw [hpn]; exact Bool.noConfusion)
        · exact find_common_prev pl p b hf a h' hp
      · cases hf
        rw [histList_eq]
        exact ha

theorem find_common_prev :
    ∀ (pl : PrevLink) (p : Node → Bool) (b : Node), (histPrev pl).find? p = Option.some b →
      ∀ a, a ∈ histPrev pl → p a = true → a ∈ histList b
  | PrevLink.none, p, b, hf, a, ha, hp => by simp [histPrev] at ha
  | PrevLink.some n, p, b, hf, a, ha, hp => find_common_node n p b hf a ha hp

end

theorem histContains_iff {n x : Node} : histContains n x = true ↔ x ∈ histList n := by
  unfold histContains
  rw [List.any_eq_true]
  constructor
  · rintro ⟨a, ha, he⟩
    rw [← nodeEq_iff.mp he]
    exact ha
  · intro h
    exact ⟨x, h, nodeEq_self x⟩

theorem histContains_false {n x : Node} (h : x ∉ histList n) : histContains n x = false := by
  cases hc : histContains n x
  · rfl
  · exact absurd (histContains_iff.mp hc) h

/-! ## LCA lemmas -/

theorem lcaOf_mem {l r a : Node} (h : lcaOf l r = Option.some a) :
    a ∈ histList l ∧ a ∈ histList r := by
  unfold lcaOf at h
  refine ⟨List.mem_of_find?_eq_some h, ?_⟩
  have := List.find?_some h
  exact histContains_iff.mp this

theorem lcaOf_comm {l r a b : Node} (ha : lcaOf l r = Option.some a)
    (hb : lcaOf r l = Option.some b) : a = b := by
  obtain ⟨hal, har⟩ := lcaOf_mem ha
  obtain ⟨hbr, hbl⟩ := lcaOf_mem hb
  have h1 : a ∈ histList b := by
    apply find_common_node r _ b hb a har
    exact histContains_iff.mpr hal
  have h2 : b ∈ histList a := by
    apply find_common_node l _ a ha b hbl
    exact histContains_iff.mpr hbr
  exact (histList_antisymm h2 h1).symm

theorem lcaOf_none_iff {l r : Node} :
    lcaOf l r = Option.none ↔ ∀ a ∈ histList l, a ∉ histList r := by
  unfold lcaOf
  rw [List.find?_eq_none]
  constructor
  · intro h a ha har
    exact absurd (histContains_iff.mpr har) (by simpa using h a ha)
  · intro h a ha
    simp only [Bool.not_eq_true]
    exact histContains_false (h a ha)

theorem lcaOf_some_symm {l r a : Node} (h : lcaOf l r = Option.some a) :
    ∃ b, lcaOf r l = Option.some b := by
  cases hb : lcaOf r l
  · rw [lcaOf_none_iff] at hb
    obtain ⟨hal, har⟩ := lcaOf_mem h
    exact absurd hal (hb a har)
  · exact ⟨_, rfl⟩

/-! ## Merge classification lemmas -/

theorem merge_inSync {l r : Node} (h : l = r) :
    merge l r = Except.ok ⟨MTInSync, l⟩ := by
  unfold merge
  rw [nodeEq_iff.mpr h]
  rfl

theorem merge_localAhead {l r : Node} (hne : l ≠ r) (hmem : r ∈ histList l) :
    merge l r = Except.ok ⟨MTLocalAhead, l⟩ := by
  unfold merge
  rw [nodeEq_false hne, histContains_iff.mpr hmem]
  rfl

theorem merge_fastForward {l r : Node} (hne : l ≠ r) (hmem : l ∈ histList r) :
    merge l r = Except.ok ⟨MTFastForward, r⟩ := by
  have hnot : r ∉ histList l := fun hr => hne (histList_antisymm hmem hr)
  unfold merge
  rw [nodeEq_false hne, histContains_false hnot, histContains_iff.mpr hmem]
  rfl

theorem merge_mergeCommit {l r anc : Node} (h2 : r ∉ histList l) (h3 : l ∉ histList r)
    (hl : lcaOf l r = Option.some anc) :
    merge l r = Except.ok ⟨MTMergeCommit, mergeRoot l r anc⟩ := by
  have hne : l ≠ r := fun he => h2 (he ▸ self_mem_histList l)
  unfold merge
  rw [nodeEq_false hne, histContains_false h2, histContains_false h3, hl]
  rfl

theorem merge_no_common_aux {l r : Node} (h : ∀ a ∈ histList l, a ∉ histList r) :
    merge l r = Except.error ErrNoCommonHistory := by
  have hne : l ≠ r := fun he => h l (self_mem_histList l) (he ▸ self_mem_histList l)
  have h2 : r ∉ histList l := fun hr => h r hr (self_mem_histList r)
  have h3 : l ∉ histList r := h l (self_mem_histList l)
  unfold merge
  rw [nodeEq_false hne, histContains_false h2, histContains_false h3,
    lcaOf_none_iff.mpr h]
  rfl

theorem merge_type_char {l r : Node} {res : MergeResultM} (h : merge l r = Except.ok res) :
    (res.type = MTInSync ↔ l = r) ∧
    (res.type = MTLocalAhead ↔ l ≠ r ∧ r ∈ histList l) ∧
    (res.type = MTFastForward ↔ l ≠ r ∧ l ∈ histList r) ∧
    (res.type = MTMergeCommit ↔
      r ∉ histList l ∧ l ∉ histList r ∧ ∃ a, a ∈ histList l ∧ a ∈ histList r) := by
  by_cases he : l = r
  · rw [merge_inSync he] at h
    cases h
    refine ⟨⟨fun _ => he, fun _ => rfl⟩, ?_, ?_, ?_⟩
    · constructor
      · intro hc
        simp [MTInSync, MTLocalAhead] at hc
      · rintro ⟨hne, _⟩
        exact absurd he hne
    · constructor
      · intro hc
        simp [MTInSync, MTFastForward] at hc
      · rintro ⟨hne, _⟩
        exact absurd he hne
    · constructor
      · intro hc
        simp [MTInSync, MTMergeCommit] at hc
      · rintro ⟨hnot, _, _⟩
        exact absurd (he ▸ self_mem_histList l) hnot
  · by_cases h2 : r ∈ histList l
    · rw [merge_localAhead he h2] at h
      cases h
      have h3 : l ∉ histList r := fun hl => he (histList_antisymm hl h2)
      refine ⟨?_, ⟨fun _ => ⟨he, h2⟩, fun _ => rfl⟩, ?_, ?_⟩
      · constructor
        · intro hc
          simp [MTInSync, MTLocalAhead] at hc
        · intro hc
          exact absurd hc he
      · constructor
        · intro hc
          simp [MTLocalAhead, MTFastForward] at hc
        · rintro ⟨_, hl⟩
          exact absurd hl h3
      · constructor
        · intro hc
          simp [MTLocalAhead, MTMergeCommit] at hc
        · rintro ⟨hnot, _, _⟩
          exact absurd h2 hnot
    · by_cases h3 : l ∈ histList r
      · rw [merge_fastForward he h3] at h
        cases h
        refine ⟨?_, ?_, ⟨fun _ => ⟨he, h3⟩, fun _ => rfl⟩, ?_⟩
        · constructor
          · intro hc
            simp [MTInSync, MTFastForward] at hc
          · intro hc
            exact absurd hc he
        · constructor
          · intro hc
            simp [MTLocalAhead, MTFastForward] at hc
          · rintro ⟨_, hr⟩
            exact absurd hr h2
        · constructor
          · intro hc
            simp [MTFastForward, MTMergeCommit] at hc
          · rintro ⟨_, hnot, _⟩
            exact absurd h3 hnot
      · cases hl : lcaOf l r with
        | none =>
            have hnc : ∀ a ∈ histList l, a ∉ histList r := by
              rw [← lcaOf_none_iff]
              exact hl
            rw [merge_no_common_aux hnc] at h
            exact absurd h (by simp)
        | some anc =>
            rw [merge_mergeCommit h2 h3 hl] at h
            cases h
            obtain ⟨hal, har⟩ := lcaOf_mem hl
            refine ⟨?_, ?_, ?_, ⟨fun _ => ⟨h2, h3, anc, hal, har⟩, fun _ => rfl⟩⟩
            · constructor
              · intro hc
                simp [MTInSync, MTMergeCommit] at hc
              · intro hc
                exact absurd hc he
            · constructor
              · intro hc
                simp [MTLocalAhead, MTMergeCommit] at hc
              · rintro ⟨_, hr⟩
                exact absurd hr h2
            · constructor
              · intro hc
                simp [MTFastForward, MTMergeCommit] at hc
              · rintro ⟨_, hr⟩
                exact absurd hr h3

/-! ## Sorted name-set lemmas -/

theorem mem_insName {y x : String} : ∀ l : List String, y ∈ insName x l ↔ y = x ∨ y ∈ l
  | [] => by simp [insName]
  | z :: zs => by
      unfold insName
      by_cases hxz : x = z
      · subst hxz
        simp only [if_pos rfl]
        constructor
        · intro h
          exact Or.inr h
        · rintro (h | h)
          · rw [h]; exact List.mem_cons_self _ _
          · exact h
      · rw [if_neg hxz]
        by_cases hlt : strLt x z = true
        · rw [if_pos hlt]
          exact List.mem_cons
        · rw [if_neg hlt]
          simp only [List.mem_cons, mem_insName zs]
          tauto

theorem mem_sortDedup {y : String} : ∀ l : List String, y ∈ sortDedup l ↔ y ∈ l
  | [] => Iff.rfl
  | x :: xs => by
      unfold sortDedup
      rw [mem_insName, mem_sortDedup xs, List.mem_cons]

/-- Strict name-sortedness: every element precedes all later ones. -/
def strictSorted (l : List String) : Prop :=
  List.Pairwise (fun a b => strLt a b = true) l

theorem insName_sorted {x : String} :
    ∀ l : List String, strictSorted l → strictSorted (insName x l)
  | [], _ => List.pairwise_cons.mpr ⟨by simp, List.Pairwise.nil⟩
  | z :: zs, h => by
      obtain ⟨hz, hzs⟩ := List.pairwise_cons.mp h
      unfold insName
      by_cases hxz : x = z
      · subst hxz
        rw [if_pos rfl]
        exact h
      · rw [if_neg hxz]
        by_cases hlt : strLt x z = true
        · rw [if_pos hlt]
          refine List.pairwise_cons.mpr ⟨?_, h⟩
          intro b hb
          rcases List.mem_cons.mp hb with hb | hb
          · rw [hb]
            exact hlt
          · exact strLt_trans hlt (hz b hb)
        · rw [if_neg hlt]
          refine List.pairwise_cons.mpr ⟨?_, insName_sorted zs hzs⟩
          intro b hb
          rcases (mem_insName zs).mp hb with hb | hb
          · rw [hb]
            rcases strLt_connected hxz with hc | hc
            · exact absurd hc hlt
            · exact hc
          · exact hz b hb

theorem sortDedup_sorted : ∀ l : List String, strictSorted (sortDedup l)
  | [] => List.Pairwise.nil
  | _ :: xs => insName_sorted (sortDedup xs) (sortDedup_sorted xs)

theorem sorted_eq_of_mem_iff :
    ∀ l₁ l₂ : List String, strictSorted l₁ → strictSorted l₂ →
      (∀ y, y ∈ l₁ ↔ y ∈ l₂) → l₁ = l₂
  | [], [], _, _, _ => rfl
  | [], z :: _, _, _, hm => absurd ((hm z).mpr (List.mem_cons_self z _)) (by simp)
  | x :: _, [], _, _, hm => absurd ((hm x).mp (List.mem_cons_self x _)) (by simp)
  | x :: xs, z :: zs, h1, h2, hm => by
      obtain ⟨hx, hxs⟩ := List.pairwise_cons.mp h1
      obtain ⟨hz, hzs⟩ := List.pairwise_cons.mp h2
      have hxz : x = z := by
        rcases List.mem_cons.mp ((hm x).mp (List.mem_cons_self x _)) with h | h
        · exact h
        · rcases List.mem_cons.mp ((hm z).mpr (List.mem_cons_self z _)) with h' | h'
          · exact h'.symm
          · have h1' := hz x h
            have h2' := hx z h'
            exact absurd h1' (by rw [strLt_asymm h2']; exact Bool.noConfusion)
      subst hxz
      have htl : ∀ y, y ∈ xs ↔ y ∈ zs := by
        intro y
        constructor
        · intro hy
          rcases List.mem_cons.mp ((hm y).mp (List.mem_cons_of_mem x hy)) with h | h
          · exact absurd (hx y hy) (by rw [h, strLt_irrefl]; exact Bool.noConfusion)
          · exact h
        · intro hy
          rcases List.mem_cons.mp ((hm y).mpr (List.mem_cons_of_mem x hy)) with h | h
          · exact absurd (hz y hy) (by rw [h, strLt_irrefl]; exact Bool.noConfusion)
          · exact h
      rw [sorted_eq_of_mem_iff xs zs hxs hzs htl]

theorem sorted_nodup {l : List String} (h : strictSorted l) : l.Nodup :=
  h.imp fun hab heq => by
    subst heq
    rw [strLt_irrefl] at hab
    exact Bool.noConfusion hab

theorem nodup_sortDedup (l : List String) : (sortDedup l).Nodup :=
  sorted_nodup (sortDedup_sorted l)

theorem sortDedup_congr {l₁ l₂ : List String} (hm : ∀ y, y ∈ l₁ ↔ y ∈ l₂) :
    sortDedup l₁ = sortDedup l₂ := by
  apply sorted_eq_of_mem_iff _ _ (sortDedup_sorted l₁) (sortDedup_sorted l₂)
  intro y
  rw [mem_sortDedup, mem_sortDedup]
  exact hm y

theorem unionNames_comm (a b : List String) : unionNames a b = unionNames b a := by
  unfold unionNames
  apply sortDedup_congr
  intro y
  simp only [List.mem_append]
  tauto

theorem mem_unionNames {y : String} {a b : List String} :
    y ∈ unionNames a b ↔ y ∈ a ∨ y ∈ b := by
  unfold unionNames
  rw [mem_sortDedup]
  exact List.mem_append

theorem nodup_unionNames (a b : List String) : (unionNames a b).Nodup :=
  nodup_sortDedup _

/-! ## Lookup lemmas for merged directories -/

theorem lookupNM_mem_names {n : String} {c : Node} :
    ∀ cs : NodeMap, lookupNM n cs = Option.some c → n ∈ namesOf cs
  | NodeMap.nil, h => by simp [lookupNM] at h
  | NodeMap.cons m c' rest, h => by
      unfold lookupNM at h
      by_cases hnm : n = m
      · rw [hnm]
        exact List.mem_cons_self _ _
      · rw [if_neg hnm] at h
        exact List.mem_cons_of_mem _ (lookupNM_mem_names rest h)

theorem mergeGo_lookup_not_mem (recFn : NodeMap → NodeMap → NodeMap → NodeMap)
    (lcs rcs acs : NodeMap) :
    ∀ (names : List String) (n : String), n ∉ names →
      lookupNM n (mergeGo recFn lcs rcs acs names) = Option.none
  | [], n, _ => rfl
  | m :: rest, n, hmem => by
      have hnm : n ≠ m := fun h => hmem (h ▸ List.mem_cons_self m rest)
      have hnr : n ∉ rest := fun h => hmem (List.mem_cons_of_mem m h)
      unfold mergeGo
      cases hres : resolveChild recFn lcs rcs acs m with
      | some e =>
          show lookupNM n (NodeMap.cons m e (mergeGo recFn lcs rcs acs rest)) = Option.none
          unfold lookupNM
          rw [if_neg hnm]
          exact mergeGo_lookup_not_mem recFn lcs rcs acs rest n hnr
      | none =>
          exact mergeGo_lookup_not_mem recFn lcs rcs acs rest n hnr

theorem mergeGo_lookup_mem (recFn : NodeMap → NodeMap → NodeMap → NodeMap)
    (lcs rcs acs : NodeMap) :
    ∀ names : List String, names.Nodup → ∀ n, n ∈ names →
      lookupNM n (mergeGo recFn lcs rcs acs names) = resolveChild recFn lcs rcs acs n
  | [], _, n, hmem => absurd hmem (by simp)
  | m :: rest, hnd, n, hmem => by
      obtain ⟨hm, hrest⟩ := List.nodup_cons.mp hnd
      unfold mergeGo
      by_cases hnm : n = m
      · subst hnm
        cases hres : resolveChild recFn lcs rcs acs n with
        | some e =>
            show lookupNM n (NodeMap.cons n e (mergeGo recFn lcs rcs acs rest)) = _
            unfold lookupNM
            rw [if_pos rfl]
        | none =>
            exact mergeGo_lookup_not_mem recFn lcs rcs acs rest n hm
      · have hnr : n ∈ rest := by
          rcases List.mem_cons.mp hmem with h | h
          · exact absurd h hnm
          · exact h
        cases hres : resolveChild recFn lcs rcs acs m with
        | some e =>
            show lookupNM n (NodeMap.cons m e (mergeGo recFn lcs rcs acs rest)) = _
            unfold lookupNM
            rw [if_neg hnm]
            exact mergeGo_lookup_mem recFn lcs rcs acs rest hrest n hnr
        | none =>
            exact mergeGo_lookup_mem recFn lcs rcs acs rest hrest n hnr

theorem mergeChildren_succ (f : Nat) (lcs rcs acs : NodeMap) :
    mergeChildren (f + 1) lcs rcs acs =
      mergeGo (mergeChildren f) lcs rcs acs (unionNames (namesOf lcs) (namesOf rcs)) := rfl

theorem mergeRoot_links {l r anc : Node} (hld : isDirNode l = true)
    (hrd : isDirNode r = true) :
    previousOf (mergeRoot l r anc) = PrevLink.some l ∧
      mergeLinkOf (mergeRoot l r anc) = PrevLink.some r := by
  cases l with
  | file _ _ => exact absurd hld (by simp [isDirNode])
  | dir lcs lp lm =>
      cases r with
      | file _ _ => exact absurd hrd (by simp [isDirNode])
      | dir rcs rp rm => exact ⟨rfl, rfl⟩

theorem mergeRoot_height_pos {l r : Node} (hld : isDirNode l = true) :
    nodeHeight l + nodeHeight r = (nodeHeight l + nodeHeight r - 1) + 1 := by
  cases l <;> cases r <;> simp [nodeHeight] <;> omega

theorem mergeRoot_lookup_resolve {l r anc : Node} {n : String}
    (hld : isDirNode l = true) (hrd : isDirNode r = true)
    (hmem : n ∈ namesOf (childrenOf l) ∨ n ∈ namesOf (childrenOf r)) :
    lookupNM n (childrenOf (mergeRoot l r anc)) =
      resolveChild (mergeChildren (nodeHeight l + nodeHeight r - 1))
        (childrenOf l) (childrenOf r) (childrenOf anc) n := by
  cases l with
  | file _ _ => exact absurd hld (by simp [isDirNode])
  | dir lcs lp lm =>
      cases r with
      | file _ _ => exact absurd hrd (by simp [isDirNode])
      | dir rcs rp rm =>
          show lookupNM n (mergeChildren
              (nodeHeight (Node.dir lcs lp lm) + nodeHeight (Node.dir rcs rp rm))
              lcs rcs (childrenOf anc)) = _
          rw [mergeRoot_height_pos (r := Node.dir rcs rp rm) hld, mergeChildren_succ]
          exact mergeGo_lookup_mem _ lcs rcs (childrenOf anc) _
            (nodup_unionNames _ _) n (mem_unionNames.mpr hmem)

/-! ## Per-name resolution lemmas -/

theorem pickWinner_deeper_l {lc rc : Node} {t : Option Node}
    (h : depthTo rc t < depthTo lc t) : pickWinner lc rc t = lc := by
  unfold pickWinner
  rw [if_pos h]

theorem pickWinner_deeper_r {lc rc : Node} {t : Option Node}
    (h : depthTo lc t < depthTo rc t) : pickWinner lc rc t = rc := by
  unfold pickWinner
  rw [if_neg (by omega), if_pos h]

theorem pickWinner_tie_gt {lc rc : Node} {t : Option Node}
    (h : depthTo lc t = depthTo rc t) (hgt : cmpNode lc rc = Ordering.gt) :
    pickWinner lc rc t = lc := by
  unfold pickWinner
  rw [if_neg (by omega), if_neg (by omega), hgt]

theorem pickWinner_tie_lt {lc rc : Node} {t : Option Node}
    (h : depthTo lc t = depthTo rc t) (hlt : cmpNode lc rc = Ordering.lt) :
    pickWinner lc rc t = rc := by
  unfold pickWinner
  rw [if_neg (by omega), if_neg (by omega), hlt]

theorem resolveChild_both_files {recFn : NodeMap → NodeMap → NodeMap → NodeMap}
    {lcs rcs acs : NodeMap} {n : String} {lc rc : Node}
    (hl : lookupNM n lcs = Option.some lc) (hr : lookupNM n rcs = Option.some rc)
    (hfl : isDirNode lc = false) (hfr : isDirNode rc = false) (hne : lc ≠ rc) :
    resolveChild recFn lcs rcs acs n = Option.some (pickWinner lc rc (lookupNM n acs)) := by
  unfold resolveChild
  rw [hl, hr]
  show resolveBoth recFn acs n lc rc = _
  unfold resolveBoth
  simp only [nodeEq_false hne, Bool.false_eq_true, if_false]
  cases lc with
  | dir _ _ _ => exact absurd hfl (by simp [isDirNode])
  | file c p =>
      cases rc with
      | dir _ _ _ => exact absurd hfr (by simp [isDirNode])
      | file c' p' => rfl

theorem resolveChild_deleted {recFn : NodeMap → NodeMap → NodeMap → NodeMap}
    {lcs rcs acs : NodeMap} {n : String} {lc ac : Node}
    (hl : lookupNM n lcs = Option.some lc) (hr : lookupNM n rcs = Option.none)
    (ha : lookupNM n acs = Option.some ac) (heq : lc = ac) :
    resolveChild recFn lcs rcs acs n = Option.none := by
  unfold resolveChild
  rw [hl, hr]
  show resolveOne acs n lc = Option.none
  unfold resolveOne
  rw [ha]
  show (if nodeEq lc ac = true then Option.none else Option.some lc) = Option.none
  rw [if_pos (nodeEq_iff.mpr heq)]

theorem resolveChild_added {recFn : NodeMap → NodeMap → NodeMap → NodeMap}
    {lcs rcs acs : NodeMap} {n : String} {lc : Node}
    (hl : lookupNM n lcs = Option.some lc) (hr : lookupNM n rcs = Option.none)
    (ha : lookupNM n acs = Option.none) :
    resolveChild recFn lcs rcs acs n = Option.some lc := by
  unfold resolveChild
  rw [hl, hr]
  show resolveOne acs n lc = Option.some lc
  unfold resolveOne
  rw [ha]

/-! ## Merge symmetry (commutativity up to CID) -/

theorem viewMap_cons (n : String) (c : Node) (rest : NodeMap) :
    viewMap (NodeMap.cons n c rest) = ViewMap.cons n (viewNode c) (viewMap rest) := by
  rw [viewMap]

theorem pickWinner_symm {lc rc : Node} (hne : lc ≠ rc) (t : Option Node) :
    pickWinner lc rc t = pickWinner rc lc t := by
  unfold pickWinner
  rcases Nat.lt_trichotomy (depthTo lc t) (depthTo rc t) with h | h | h
  · rw [if_neg (by omega), if_pos h, if_pos h]
  · rw [if_neg (by omega), if_neg (by omega), if_neg (by omega), if_neg (by omega),
      ← cmpNode_swap lc rc]
    cases hc : cmpNode lc rc
    · rfl
    · exact absurd (cmpNode_eq lc rc hc) hne
    · rfl
  · rw [if_pos h, if_neg (by omega), if_pos h]

theorem resolveChild_none_none {recFn : NodeMap → NodeMap → NodeMap → NodeMap}
    {lcs rcs acs : NodeMap} {n : String}
    (hl : lookupNM n lcs = Option.none) (hr : lookupNM n rcs = Option.none) :
    resolveChild recFn lcs rcs acs n = Option.none := by
  unfold resolveChild
  rw [hl, hr]

theorem resolveChild_only_l {recFn : NodeMap → NodeMap → NodeMap → NodeMap}
    {lcs rcs acs : NodeMap} {n : String} {lc : Node}
    (hl : lookupNM n lcs = Option.some lc) (hr : lookupNM n rcs = Option.none) :
    resolveChild recFn lcs rcs acs n = resolveOne acs n lc := by
  unfold resolveChild
  rw [hl, hr]

theorem resolveChild_only_r {recFn : NodeMap → NodeMap → NodeMap → NodeMap}
    {lcs rcs acs : NodeMap} {n : String} {rc : Node}
    (hl : lookupNM n lcs = Option.none) (hr : lookupNM n rcs = Option.some rc) :
    resolveChild recFn lcs rcs acs n = resolveOne acs n rc := by
  unfold resolveChild
  rw [hl, hr]

theorem resolveChild_both {recFn : NodeMap → NodeMap → NodeMap → NodeMap}
    {lcs rcs acs : NodeMap} {n : String} {lc rc : Node}
    (hl : lookupNM n lcs = Option.some lc) (hr : lookupNM n rcs = Option.some rc) :
    resolveChild recFn lcs rcs acs n = resolveBoth recFn acs n lc rc := by
  unfold resolveChild
  rw [hl, hr]

theorem resolveBoth_symm (recFn : NodeMap → NodeMap → NodeMap → NodeMap)
    (hrec : ∀ x y a, viewMap (recFn x y a) = viewMap (recFn y x a))
    (acs : NodeMap) (n : String) (lc rc : Node) :
    Option.map viewNode (resolveBoth recFn acs n lc rc) =
      Option.map viewNode (resolveBoth recFn acs n rc lc) := by
  by_cases he : lc = rc
  · subst he
    rfl
  · have h1 := nodeEq_false he
    have h2 := nodeEq_false (fun h => he h.symm)
    unfold resolveBoth
    rw [h1, h2]
    simp only [Bool.false_eq_true, if_false]
    cases lc with
    | file c p =>
        cases rc with
        | file c' p' =>
            show Option.some (viewNode (pickWinner (Node.file c p) (Node.file c' p')
                (ancEntry acs n))) =
              Option.some (viewNode (pickWinner (Node.file c' p') (Node.file c p)
                (ancEntry acs n)))
            rw [pickWinner_symm he]
        | dir rcs' rp rm =>
            show Option.some (viewNode (pickWinner (Node.file c p) (Node.dir rcs' rp rm)
                (ancEntry acs n))) =
              Option.some (viewNode (pickWinner (Node.dir rcs' rp rm) (Node.file c p)
                (ancEntry acs n)))
            rw [pickWinner_symm he]
    | dir lcs' lp lm =>
        cases rc with
        | file c' p' =>
            show Option.some (viewNode (pickWinner (Node.dir lcs' lp lm) (Node.file c' p')
                (ancEntry acs n))) =
              Option.some (viewNode (pickWinner (Node.file c' p') (Node.dir lcs' lp lm)
                (ancEntry acs n)))
            rw [pickWinner_symm he]
        | dir rcs' rp rm =>
            show Option.some (ViewT.vdir (viewMap (recFn lcs' rcs' (ancSubMap acs n)))) =
              Option.some (ViewT.vdir (viewMap (recFn rcs' lcs' (ancSubMap acs n))))
            rw [hrec lcs' rcs' (ancSubMap acs n)]

theorem resolveChild_symm (recFn : NodeMap → NodeMap → NodeMap → NodeMap)
    (hrec : ∀ x y a, viewMap (recFn x y a) = viewMap (recFn y x a))
    (lcs rcs acs : NodeMap) (n : String) :
    Option.map viewNode (resolveChild recFn lcs rcs acs n) =
      Option.map viewNode (resolveChild recFn rcs lcs acs n) := by
  cases hl : lookupNM n lcs with
  | none =>
      cases hr : lookupNM n rcs with
      | none =>
          rw [resolveChild_none_none hl hr, resolveChild_none_none hr hl]
      | some rc =>
          rw [resolveChild_only_r hl hr, resolveChild_only_l hr hl]
  | some lc =>
      cases hr : lookupNM n rcs with
      | none =>
          rw [resolveChild_only_l hl hr, resolveChild_only_r hr hl]
      | some rc =>
          rw [resolveChild_both hl hr, resolveChild_both hr hl]
          exact resolveBoth_symm recFn hrec acs n lc rc

theorem mergeGo_symm (recFn : NodeMap → NodeMap → NodeMap → NodeMap)
    (hrec : ∀ x y a, viewMap (recFn x y a) = viewMap (recFn y x a))
    (lcs rcs acs : NodeMap) :
    ∀ names : List String,
      viewMap (mergeGo recFn lcs rcs acs names) = viewMap (mergeGo recFn rcs lcs acs names)
  | [] => rfl
  | n :: rest => by
      have hres := resolveChild_symm recFn hrec lcs rcs acs n
      unfold mergeGo
      cases h1 : resolveChild recFn lcs rcs acs n with
      | none =>
          cases h2 : resolveChild recFn rcs lcs acs n with
          | none => exact mergeGo_symm recFn hrec lcs rcs acs rest
          | some e2 =>
              rw [h1, h2] at hres
              exact absurd hres (by simp)
      | some e1 =>
          cases h2 : resolveChild recFn rcs lcs acs n with
          | none =>
              rw [h1, h2] at hres
              exact absurd hres (by simp)
          | some e2 =>
              rw [h1, h2] at hres
              have hv : viewNode e1 = viewNode e2 := by simpa using hres
              rw [viewMap_cons, viewMap_cons, hv,
                mergeGo_symm recFn hrec lcs rcs acs rest]

theorem mergeChildren_symm :
    ∀ (f : Nat) (lcs rcs acs : NodeMap),
      viewMap (mergeChildren f lcs rcs acs) = viewMap (mergeChildren f rcs lcs acs)
  | 0, _, _, _ => rfl
  | f + 1, lcs, rcs, acs => by
      rw [mergeChildren_succ, mergeChildren_succ,
        unionNames_comm (namesOf rcs) (namesOf lcs)]
      exact mergeGo_symm (mergeChildren f) (fun x y a => mergeChildren_symm f x y a)
        lcs rcs acs _

theorem mergeRoot_symm {l r : Node} (hne : l ≠ r) (anc : Node) :
    viewNode (mergeRoot l r anc) = viewNode (mergeRoot r l anc) := by
  cases l with
  | file c p =>
      cases r with
      | file c' p' =>
          show viewNode (pickWinner (Node.file c p) (Node.file c' p') (Option.some anc)) =
            viewNode (pickWinner (Node.file c' p') (Node.file c p) (Option.some anc))
          rw [pickWinner_symm hne]
      | dir rcs rp rm =>
          show viewNode (pickWinner (Node.file c p) (Node.dir rcs rp rm) (Option.some anc)) =
            viewNode (pickWinner (Node.dir rcs rp rm) (Node.file c p) (Option.some anc))
          rw [pickWinner_symm hne]
  | dir lcs lp lm =>
      cases r with
      | file c' p' =>
          show viewNode (pickWinner (Node.dir lcs lp lm) (Node.file c' p') (Option.some anc)) =
            viewNode (pickWinner (Node.file c' p') (Node.dir lcs lp lm) (Option.some anc))
          rw [pickWinner_symm hne]
      | dir rcs rp rm =>
          show ViewT.vdir (viewMap (mergeChildren
              (nodeHeight (Node.dir lcs lp lm) + nodeHeight (Node.dir rcs rp rm))
              lcs rcs (childrenOf anc))) =
            ViewT.vdir (viewMap (mergeChildren
              (nodeHeight (Node.dir rcs rp rm) + nodeHeight (Node.dir lcs lp lm))
              rcs lcs (childrenOf anc)))
          rw [Nat.add_comm (nodeHeight (Node.dir rcs rp rm)),
            mergeChildren_symm _ lcs rcs (childrenOf anc)]

theorem merge_comm_aux {l r : Node} {res1 res2 : MergeResultM}
    (h1 : merge l r = Except.ok res1) (h2 : merge r l = Except.ok res2) :
    viewNode res1.node = viewNode res2.node := by
  by_cases he : l = r
  · subst he
    rw [merge_inSync rfl] at h1 h2
    cases h1
    cases h2
    rfl
  · by_cases hm1 : r ∈ histList l
    · rw [merge_localAhead he hm1] at h1
      rw [merge_fastForward (fun h => he h.symm) hm1] at h2
      cases h1
      cases h2
      rfl
    · by_cases hm2 : l ∈ histList r
      · rw [merge_fastForward he hm2] at h1
        rw [merge_localAhead (fun h => he h.symm) hm2] at h2
        cases h1
        cases h2
        rfl
      · cases hl : lcaOf l r with
        | none =>
            rw [merge_no_common_aux (by
              intro a ha har
              exact (lcaOf_none_iff.mp hl) a ha har)] at h1
            exact absurd h1 (by simp)
        | some anc =>
            obtain ⟨anc', hl'⟩ := lcaOf_some_symm hl
            have hanc : anc = anc' := lcaOf_comm hl hl'
            subst hanc
            rw [merge_mergeCommit hm1 hm2 hl] at h1
            rw [merge_mergeCommit hm2 hm1 hl'] at h2
            cases h1
            cases h2
            exact mergeRoot_symm he anc

/-! ## Helper lemmas for the claim theorems -/

theorem nodeEq_ne {a b : Node} (h : nodeEq a b = false) : a ≠ b := by
  intro he
  subst he
  rw [nodeEq_self] at h
  exact Bool.noConfusion h

theorem not_mem_of_histContains_false {n x : Node} (h : histContains n x = false) :
    x ∉ histList n := by
  intro hx
  rw [histContains_iff.mpr hx] at h
  exact Bool.noConfusion h

theorem merge_commit_node {l r : Node} {res : MergeResultM}
    (h : merge l r = Except.ok res) (ht : res.type = MTMergeCommit) :
    ∃ anc, lcaOf l r = Option.some anc ∧ res.node = mergeRoot l r anc := by
  by_cases he : l = r
  · rw [merge_inSync he] at h
    cases h
    simp [MTInSync, MTMergeCommit] at ht
  · by_cases hm1 : r ∈ histList l
    · rw [merge_localAhead he hm1] at h
      cases h
      simp [MTLocalAhead, MTMergeCommit] at ht
    · by_cases hm2 : l ∈ histList r
      · rw [merge_fastForward he hm2] at h
        cases h
        simp [MTFastForward, MTMergeCommit] at ht
      · cases hl : lcaOf l r with
        | none =>
            rw [merge_no_common_aux (lcaOf_none_iff.mp hl)] at h
            exact absurd h (by simp)
        | some anc =>
            rw [merge_mergeCommit hm1 hm2 hl] at h
            cases h
            exact ⟨anc, rfl, rfl⟩

theorem merge_ok_common {l r : Node} {res : MergeResultM}
    (h : merge l r = Except.ok res) :
    r ∈ histList l ∨ l ∈ histList r ∨ ∃ a, a ∈ histList l ∧ a ∈ histList r := by
  by_cases he : l = r
  · exact Or.inl (he ▸ self_mem_histList l)
  · by_cases hm1 : r ∈ histList l
    · exact Or.inl hm1
    · by_cases hm2 : l ∈ histList r
      · exact Or.inr (Or.inl hm2)
      · cases hl : lcaOf l r with
        | none =>
            rw [merge_no_common_aux (lcaOf_none_iff.mp hl)] at h
            exact absurd h (by simp)
        | some anc =>
            obtain ⟨hal, har⟩ := lcaOf_mem hl
            exact Or.inr (Or.inr ⟨anc, hal, har⟩)

theorem merge_ok_symm {l r : Node} {res1 : MergeResultM}
    (h1 : merge l r = Except.ok res1) : ∃ res2, merge r l = Except.ok res2 := by
  by_cases he : l = r
  · exact ⟨⟨MTInSync, r⟩, merge_inSync he.symm⟩
  · by_cases hm1 : r ∈ histList l
    · exact ⟨⟨MTFastForward, l⟩, merge_fastForward (fun h => he h.symm) hm1⟩
    · by_cases hm2 : l ∈ histList r
      · exact ⟨⟨MTLocalAhead, r⟩, merge_localAhead (fun h => he h.symm) hm2⟩
      · cases hl : lcaOf l r with
        | none =>
            rw [merge_no_common_aux (lcaOf_none_iff.mp hl)] at h1
            exact absurd h1 (by simp)
        | some anc =>
            obtain ⟨anc', hl'⟩ := lcaOf_some_symm hl
            exact ⟨⟨MTMergeCommit, mergeRoot r l anc'⟩, merge_mergeCommit hm2 hm1 hl'⟩

/-! ## Claim theorems -/

/-- C3: Merge of a local root `L` with a remote root `R` returns a result
classified as exactly one of four kinds, determined by the history
relation: `InSync` when the CIDs agree, `LocalAhead` when `R`'s CID appears
in `L`'s history, `FastForward` when `L`'s CID appears in `R`'s history,
`MergeCommit` when the histories share a common ancestor but diverge; and
`RemoteSync.MergeResult` maps `RSSInSync`, `RSSLocalAhead`,
`RSSRemoteAhead`, `RSSDiverged` to those four kinds respectively, for every
`RemoteSync` value. -/
theorem merge_classification :
    (∀ (l r : Node) (res : MergeResultM), merge l r = Except.ok res →
      ((res.type = MTInSync ↔ l = r) ∧
       (res.type = MTLocalAhead ↔ l ≠ r ∧ r ∈ histList l) ∧
       (res.type = MTFastForward ↔ l ≠ r ∧ l ∈ histList r) ∧
       (res.type = MTMergeCommit ↔
         r ∉ histList l ∧ l ∉ histList r ∧ ∃ a, a ∈ histList l ∧ a ∈ histList r) ∧
       (r ∈ histList l ∨ l ∈ histList r ∨ ∃ a, a ∈ histList l ∧ a ∈ histList r))) ∧
    (∀ rs : RemoteSync,
      (rs.Status = RSSInSync → (RemoteSync.MergeResult rs).MType = MTInSync) ∧
      (rs.Status = RSSLocalAhead → (RemoteSync.MergeResult rs).MType = MTLocalAhead) ∧
      (rs.Status = RSSRemoteAhead → (RemoteSync.MergeResult rs).MType = MTFastForward) ∧
      (rs.Status = RSSDiverged → (RemoteSync.MergeResult rs).MType = MTMergeCommit)) := by
  constructor
  · intro l r res h
    obtain ⟨h1, h2, h3, h4⟩ := merge_type_char h
    exact ⟨h1, h2, h3, h4, merge_ok_common h⟩
  · intro rs
    refine ⟨?_, ?_, ?_, ?_⟩ <;> intro h <;>
      simp [RemoteSync.MergeResult, h, RSSInSync, RSSLocalAhead, RSSRemoteAhead, RSSDiverged]

/-- Witness for C3: the shared-ancestor fixture is in sync with itself, the
fast-forward fixture classifies as `FastForward`, and a diverged
`RemoteSync` maps to `MTMergeCommit`. -/
theorem merge_classification_witness :
    ((⟨MTInSync, nodeOf fixA1⟩ : MergeResultM).type = MTInSync) ∧
    ((⟨MTFastForward, nodeOf ncB2⟩ : MergeResultM).type = MTFastForward) ∧
    (RemoteSync.MergeResult ⟨RSSDiverged, Option.none, 0, 0⟩).MType = MTMergeCommit := by
  refine ⟨?_, ?_, ?_⟩
  · exact ((merge_classification.1 (nodeOf fixA1) (nodeOf fixA1)
      ⟨MTInSync, nodeOf fixA1⟩ rfl).1).mpr rfl
  · refine ((merge_classification.1 (nodeOf fixA1) (nodeOf ncB2)
      ⟨MTFastForward, nodeOf ncB2⟩ rfl).2.2.1).mpr ⟨nodeEq_ne rfl, ?_⟩
    show nodeOf fixA1 ∈ histList (nodeOf ncB2)
    rw [show histList (nodeOf ncB2) = [nodeOf ncB2, nodeOf fixA1] from rfl]
    exact List.mem_cons_of_mem _ (List.mem_cons_self _ _)
  · exact (merge_classification.2 ⟨RSSDiverged, Option.none, 0, 0⟩).2.2.2 rfl

/-- C4: merge of two roots whose history chains share no CID fails with the
`NoCommonHistory` error. -/
theorem merge_no_common_history (l r : Node)
    (h : ∀ a ∈ histList l, a ∉ histList r) :
    merge l r = Except.error ErrNoCommonHistory :=
  merge_no_common_aux h

/-- Witness for C4: replaying `TestBasicTreeMerge/no_common_history` — a
one-file tree and a fresh empty tree share no history, and merging them
fails with `ErrNoCommonHistory`. -/
theorem merge_no_common_history_witness :
    merge (nodeOf fixA1) emptyRoot = Except.error ErrNoCommonHistory := by
  apply merge_no_common_history
  intro a ha hb
  rw [show histList (nodeOf fixA1) = [nodeOf fixA1] from rfl] at ha
  rw [show histList emptyRoot = [emptyRoot] from rfl] at hb
  rcases List.mem_singleton.mp ha with rfl
  exact nodeEq_ne (show nodeEq (nodeOf fixA1) emptyRoot = false from rfl)
    (List.mem_singleton.mp hb)

/-- C5: after the six mutations of scenario S2 on an empty tree, the history
lengths obtained by walking previous-links are: root 6, `salut.txt` 2,
`dir` 3, `dir/goodbye.txt` 2, `dir/bonjour.txt` 1 (as asserted by
`TestHistory`). -/
theorem history_lengths_s2 :
    s2root.map histLen = Option.some 6 ∧
    (s2root.bind (fun r => getNode r ["salut.txt"])).map histLen = Option.some 2 ∧
    (s2root.bind (fun r => getNode r ["dir"])).map histLen = Option.some 3 ∧
    (s2root.bind (fun r => getNode r ["dir", "goodbye.txt"])).map histLen = Option.some 2 ∧
    (s2root.bind (fun r => getNode r ["dir", "bonjour.txt"])).map histLen = Option.some 1 :=
  ⟨rfl, rfl, rfl, rfl, rfl⟩

/-- C6: after adding `foo/bar/baz/hello.txt`, `bar/baz/goodbye` and
`some.json` to an empty tree, the root's skeleton is the recursive
structure mirroring exactly those paths, with `isFile = true` and no
sub-skeleton at each file leaf and nested sub-skeletons at each directory
(as asserted by `TestTreeSkeleton`). -/
theorem skeleton_s1 : s1root.bind skeletonOf = Option.some s1expect := rfl

/-- C1: in a merge-commit of two directories that both contain the same
file name with divergent contents, the merged directory keeps the version
from the side whose history chain from the LCA is longer, with ties broken
by the greater CID. -/
theorem merge_file_conflict_depth_wins {l r anc : Node} {res : MergeResultM}
    {n : String} {lc rc : Node}
    (hm : merge l r = Except.ok res) (ht : res.type = MTMergeCommit)
    (hanc : lcaOf l r = Option.some anc)
    (hld : isDirNode l = true) (hrd : isDirNode r = true)
    (hl : lookupNM n (childrenOf l) = Option.some lc)
    (hr : lookupNM n (childrenOf r) = Option.some rc)
    (hfl : isDirNode lc = false) (hfr : isDirNode rc = false)
    (hne : lc ≠ rc) :
    (depthTo rc (lookupNM n (childrenOf anc)) < depthTo lc (lookupNM n (childrenOf anc)) →
        lookupNM n (childrenOf res.node) = Option.some lc) ∧
    (depthTo lc (lookupNM n (childrenOf anc)) < depthTo rc (lookupNM n (childrenOf anc)) →
        lookupNM n (childrenOf res.node) = Option.some rc) ∧
    (depthTo lc (lookupNM n (childrenOf anc)) = depthTo rc (lookupNM n (childrenOf anc)) →
        lookupNM n (childrenOf res.node) =
          Option.some (if cmpNode lc rc = Ordering.gt then lc else rc)) := by
  obtain ⟨anc', hanc', hnode⟩ := merge_commit_node hm ht
  rw [hanc'] at hanc
  cases hanc
  rw [hnode, mergeRoot_lookup_resolve hld hrd (Or.inl (lookupNM_mem_names _ hl)),
    resolveChild_both_files hl hr hfl hfr hne]
  refine ⟨fun hd => ?_, fun hd => ?_, fun hd => ?_⟩
  · rw [pickWinner_deeper_l hd]
  · rw [pickWinner_deeper_r hd]
  · cases hc : cmpNode lc rc with
    | eq => exact absurd (cmpNode_eq _ _ hc) hne
    | gt =>
        rw [pickWinner_tie_gt hd hc]
        simp [hc]
    | lt =>
        rw [pickWinner_tie_lt hd hc]
        simp [hc]

/-- Witness for C1: replaying `remote_overwrites_local_file` — the remote
side rewrote `hello.txt` (depth 1 from the LCA) while the local side left
it at the ancestor version (depth 0), so the merge keeps the remote
contents. -/
theorem merge_file_conflict_depth_wins_witness :
    lookupNM "hello.txt" (childrenOf (mergeOk (nodeOf roA) (nodeOf roB)).node) =
      Option.some (Node.file (bytes "hello **2**, written on remote")
        (PrevLink.some (Node.file (bytes "hello!") PrevLink.none))) := by
  have happ := @merge_file_conflict_depth_wins
    (nodeOf roA) (nodeOf roB) (nodeOf fixA1)
    (mergeOk (nodeOf roA) (nodeOf roB)) "hello.txt"
    (Node.file (bytes "hello!") PrevLink.none)
    (Node.file (bytes "hello **2**, written on remote")
      (PrevLink.some (Node.file (bytes "hello!") PrevLink.none)))
    rfl rfl rfl rfl rfl rfl rfl rfl rfl
    (nodeEq_ne rfl)
  exact happ.2.1 (by decide)

/-- C7: in a merge-commit where the remote side deleted a name that is
unchanged from the common ancestor on the local side, and the local side
made an unrelated addition, the merged directory omits the deleted name and
keeps the addition. -/
theorem merge_remote_delete {l r anc : Node} {res : MergeResultM}
    {n nAdd : String} {lc ac x : Node}
    (hm : merge l r = Except.ok res) (ht : res.type = MTMergeCommit)
    (hanc : lcaOf l r = Option.some anc)
    (hld : isDirNode l = true) (hrd : isDirNode r = true)
    (hl : lookupNM n (childrenOf l) = Option.some lc)
    (hr : lookupNM n (childrenOf r) = Option.none)
    (ha : lookupNM n (childrenOf anc) = Option.some ac) (heq : lc = ac)
    (hl' : lookupNM nAdd (childrenOf l) = Option.some x)
    (hr' : lookupNM nAdd (childrenOf r) = Option.none)
    (ha' : lookupNM nAdd (childrenOf anc) = Option.none) :
    lookupNM n (childrenOf res.node) = Option.none ∧
    lookupNM nAdd (childrenOf res.node) = Option.some x := by
  obtain ⟨anc', hanc', hnode⟩ := merge_commit_node hm ht
  rw [hanc'] at hanc
  cases hanc
  constructor
  · rw [hnode, mergeRoot_lookup_resolve hld hrd (Or.inl (lookupNM_mem_names _ hl)),
      resolveChild_deleted hl hr ha heq]
  · rw [hnode, mergeRoot_lookup_resolve hld hrd (Or.inl (lookupNM_mem_names _ hl')),
      resolveChild_added hl' hr' ha']

/-- Witness for C7: replaying `remote_deletes_local_file` — the remote side
removed `hello.txt`, the local side added `goodbye.txt`; the merged
directory drops `hello.txt` and keeps `goodbye.txt`. -/
theorem merge_remote_delete_witness :
    lookupNM "hello.txt" (childrenOf (mergeOk (nodeOf rdA) (nodeOf rdB)).node) =
      Option.none ∧
    lookupNM "goodbye.txt" (childrenOf (mergeOk (nodeOf rdA) (nodeOf rdB)).node) =
      Option.some (Node.file (bytes "goodbye!") PrevLink.none) :=
  @merge_remote_delete
    (nodeOf rdA) (nodeOf rdB) (nodeOf fixA1)
    (mergeOk (nodeOf rdA) (nodeOf rdB)) "hello.txt" "goodbye.txt"
    (Node.file (bytes "hello!") PrevLink.none)
    (Node.file (bytes "hello!") PrevLink.none)
    (Node.file (bytes "goodbye!") PrevLink.none)
    rfl rfl rfl rfl rfl rfl rfl rfl rfl rfl rfl rfl

/-- C8: after a merge-commit of local root `L` with remote root `R`, the
merged node carries `previous = L.cid` and an additional `merge = R.cid`
pointer. -/
theorem merge_commit_links {l r : Node} {res : MergeResultM}
    (hm : merge l r = Except.ok res) (ht : res.type = MTMergeCommit)
    (hld : isDirNode l = true) (hrd : isDirNode r = true) :
    previousOf res.node = PrevLink.some l ∧ mergeLinkOf res.node = PrevLink.some r := by
  obtain ⟨anc, _, hnode⟩ := merge_commit_node hm ht
  rw [hnode]
  exact mergeRoot_links hld hrd

/-- Witness for C8: replaying `no_conflict_merge` — the merged root links
the local root through `previous` and the remote root through `merge`. -/
theorem merge_commit_links_witness :
    previousOf (mergeOk (nodeOf ncA2) (nodeOf ncB2)).node = PrevLink.some (nodeOf ncA2) ∧
    mergeLinkOf (mergeOk (nodeOf ncA2) (nodeOf ncB2)).node = PrevLink.some (nodeOf ncB2) :=
  @merge_commit_links (nodeOf ncA2) (nodeOf ncB2)
    (mergeOk (nodeOf ncA2) (nodeOf ncB2)) rfl rfl rfl rfl

/-- C9: for every pair of roots with common history, merging either way
succeeds, and `merge(L, R)` and `merge(R, L)` produce filesystems with
identical file contents and identical directory structure (the userland
view, which strips the `previous`/`merge` pointers, coincides). -/
theorem merge_commutes {l r : Node} {res1 : MergeResultM}
    (h1 : merge l r = Except.ok res1) :
    ∃ res2, merge r l = Except.ok res2 ∧ viewNode res1.node = viewNode res2.node := by
  obtain ⟨res2, h2⟩ := merge_ok_symm h1
  exact ⟨res2, h2, merge_comm_aux h1 h2⟩

/-- Witness for C9: the two directional merges of the `no_conflict_merge`
fixtures yield the same userland view. -/
theorem merge_commutes_witness :
    ∃ res2, merge (nodeOf ncB2) (nodeOf ncA2) = Except.ok res2 ∧
      viewNode (mergeOk (nodeOf ncA2) (nodeOf ncB2)).node = viewNode res2.node :=
  @merge_commutes (nodeOf ncA2) (nodeOf ncB2)
    (mergeOk (nodeOf ncA2) (nodeOf ncB2)) rfl

/-- C2: a mutation (`mkdir`, `write`, `cp`, `rm`) that fails before commit
leaves the externally persisted root state — the `RootCID`, `RootKey`,
`PrivateRootName` record — unchanged and equal to the pre-mutation root,
even though the command's deferred `updateExternalState` still rewrites the
record from the (unchanged) handle. -/
theorem failed_mutation_keeps_external_state {sess : Session} {m : Mutation} {e : String}
    (hcons : sess.record = recordOf sess.fs)
    (hfail : applyMutation sess.fs m = Except.error e) :
    (runCommand sess m).1.record = sess.record ∧
    (runCommand sess m).1.record.RootCID = sess.fs.cid ∧
    (runCommand sess m).2 = Option.some e := by
  unfold runCommand
  rw [hfail]
  exact ⟨hcons.symm, rfl, rfl⟩

/-- Witness for C2: a `mkdir` through an existing file fails, and the
session's persisted record is untouched. -/
theorem failed_mutation_keeps_external_state_witness :
    (runCommand
        ⟨⟨fixA1, NewKey, []⟩, recordOf ⟨fixA1, NewKey, []⟩⟩
        (Mutation.mkdir ["hello.txt", "sub"])).1.record =
      recordOf ⟨fixA1, NewKey, []⟩ :=
  (@failed_mutation_keeps_external_state
    ⟨⟨fixA1, NewKey, []⟩, recordOf ⟨fixA1, NewKey, []⟩⟩
    (Mutation.mkdir ["hello.txt", "sub"]) "mkdir failed"
    rfl rfl).1

/-- C10: whenever `LoadOrCreateExternalState` returns without error, the
returned state has a non-empty `RootKey`; when the state file did not
exist, a fresh state with a newly sampled key was created and written; when
the file decoded to a record with an empty `RootKey`, a fresh key was
generated and the file rewritten before returning. -/
theorem NewKey_not_empty : NewKey.IsEmpty = false := by decide

theorem load_or_create_external_state_rootkey
    {path : String} {read : ReadFileResult} {writeOk : Bool}
    {s : ExternalState} {w : Bool}
    (h : LoadOrCreateExternalState path read writeOk = Except.ok (s, w)) :
    s.RootKey.IsEmpty = false ∧
    (read = ReadFileResult.notExist → s.RootKey = NewKey ∧ w = true) ∧
    (∀ s0, read = ReadFileResult.ok s0 → s0.RootKey.IsEmpty = true →
      s.RootKey = NewKey ∧ w = true) := by
  cases read with
  | notExist =>
      simp only [LoadOrCreateExternalState] at h
      cases writeOk with
      | false => exact absurd h (by simp)
      | true =>
          rw [if_pos rfl] at h
          cases h
          exact ⟨NewKey_not_empty, fun _ => ⟨rfl, rfl⟩, fun s0 h0 => by cases h0⟩
  | otherErr => exact absurd h (by simp [LoadOrCreateExternalState])
  | badJSON => exact absurd h (by simp [LoadOrCreateExternalState])
  | ok s0 =>
      simp only [LoadOrCreateExternalState] at h
      by_cases hk : ({ s0 with path := path } : ExternalState).RootKey.IsEmpty = true
      · rw [if_pos hk] at h
        cases writeOk with
        | false => exact absurd h (by simp)
        | true =>
            rw [if_pos rfl] at h
            cases h
            refine ⟨NewKey_not_empty, fun hc => ReadFileResult.noConfusion hc, ?_⟩
            intro s1 h1 _
            injection h1 with h1
            subst h1
            exact ⟨rfl, rfl⟩
      · rw [if_neg hk] at h
        cases h
        refine ⟨by simpa using hk, fun hc => ReadFileResult.noConfusion hc, ?_⟩
        intro s1 h1 hk1
        injection h1 with h1
        subst h1
        exact absurd hk1 (by simpa using hk)

/-- Witness for C10: loading with no state file present creates a state
carrying the fresh key and writes it. -/
theorem load_or_create_external_state_rootkey_witness :
    ∃ s w, LoadOrCreateExternalState "wnfs-go.json" ReadFileResult.notExist true =
        Except.ok (s, w) ∧
      s.RootKey.IsEmpty = false ∧ s.RootKey = NewKey ∧ w = true := by
  refine ⟨⟨"wnfs-go.json", 0, NewKey, []⟩, true, rfl, ?_⟩
  have happ := @load_or_create_external_state_rootkey
    "wnfs-go.json" ReadFileResult.notExist true
    ⟨"wnfs-go.json", 0, NewKey, []⟩ true rfl
  exact ⟨happ.1, happ.2.1 rfl⟩

end Wnfs
